import Mathlib

/-!
Shallow embedding of `torchsnapshot/batcher.py` and verification of its
specification claims.

The embedding models:
* Python `dict` semantics (insertion order, in-place overwrite) as
  association lists with an assign-or-replace operation;
* `bytearray` slabs as `List Nat` with slice assignment;
* `BatchedBufferStager` (construction check, `stage_buffer`, builder);
* `batch_write_requests` (greedy slab packing, relocation table, entry
  rewriting with the deep-copy modelled by value semantics);
* `BatchedBufferConsumer` and `batch_read_requests` (per-location range
  merging with covering ranges and translated sub-ranges).

Machine integers in the source are Python `int`s (unbounded), so byte
offsets and sizes are modelled as `Nat`; all offsets appearing at runtime
are non-negative.
-/

set_option autoImplicit false

namespace Batcher

universe u v

/-! ## Python dict semantics as association lists

A Python `dict` keeps insertion order; assigning to an existing key
overwrites the value in place, assigning to a fresh key appends.
`dictGet` is `d[k]` (first — and only — matching key), `dictAssign` is
`d[k] = v`, and `dictAppendVal` is `defaultdict(list); d[k].append(x)`.
-/

variable {α : Type u} {β : Type v} [DecidableEq α]

def dictGet : List (α × β) → α → Option β
  | [], _ => none
  | (k, v) :: t, a => if k = a then some v else dictGet t a

def dictAssign : List (α × β) → α → β → List (α × β)
  | [], k, v => [(k, v)]
  | (k', v') :: t, k, v => if k' = k then (k, v) :: t else (k', v') :: dictAssign t k v

def dictAppendVal : List (α × List β) → α → β → List (α × List β)
  | [], k, x => [(k, [x])]
  | (k', l) :: t, k, x =>
      if k' = k then (k', l ++ [x]) :: t else (k', l) :: dictAppendVal t k x

def dictKeys (m : List (α × β)) : List α := m.map Prod.fst

@[simp] theorem dictGet_nil (a : α) : dictGet ([] : List (α × β)) a = none := rfl

theorem dictGet_dictAssign_self (m : List (α × β)) (k : α) (v : β) :
    dictGet (dictAssign m k v) k = some v := by
  induction m with
  | nil => simp [dictAssign, dictGet]
  | cons p t ih =>
      obtain ⟨k', v'⟩ := p
      by_cases h : k' = k
      · simp [dictAssign, dictGet, h]
      · simp [dictAssign, dictGet, h, ih]

theorem dictGet_dictAssign_ne (m : List (α × β)) (k k' : α) (v : β) (h : k' ≠ k) :
    dictGet (dictAssign m k v) k' = dictGet m k' := by
  induction m with
  | nil => simp [dictAssign, dictGet, Ne.symm h]
  | cons p t ih =>
      obtain ⟨k₀, v₀⟩ := p
      by_cases h₀ : k₀ = k
      · subst h₀
        simp [dictAssign, dictGet, Ne.symm h]
      · by_cases h₁ : k₀ = k'
        · simp [dictAssign, dictGet, h₀, h₁, h]
        · simp [dictAssign, dictGet, h₀, h₁, ih]

theorem mem_dictKeys_dictAssign (m : List (α × β)) (k k' : α) (v : β) :
    k' ∈ dictKeys (dictAssign m k v) ↔ k' ∈ dictKeys m ∨ k' = k := by
  induction m with
  | nil => simp [dictAssign, dictKeys]
  | cons p t ih =>
      obtain ⟨k₀, v₀⟩ := p
      by_cases h₀ : k₀ = k
      · subst h₀
        simp [dictAssign, dictKeys]
        tauto
      · simp [dictAssign, dictKeys, h₀] at *
        tauto

theorem dictKeys_nodup_dictAssign (m : List (α × β)) (k : α) (v : β)
    (h : (dictKeys m).Nodup) : (dictKeys (dictAssign m k v)).Nodup := by
  induction m with
  | nil => simp [dictAssign, dictKeys]
  | cons p t ih =>
      obtain ⟨k₀, v₀⟩ := p
      simp only [dictKeys, List.map_cons, List.nodup_cons] at h
      by_cases h₀ : k₀ = k
      · subst h₀
        simpa [dictAssign, dictKeys, List.nodup_cons] using h
      · have ht := ih h.2
        simp only [dictAssign, h₀, if_false, dictKeys, List.map_cons, List.nodup_cons]
        refine ⟨?_, ht⟩
        intro hmem
        rcases (mem_dictKeys_dictAssign t k k₀ v).1 hmem with hin | heq
        · exact h.1 hin
        · exact h₀ heq

theorem dictGet_eq_none_iff (m : List (α × β)) (k : α) :
    dictGet m k = none ↔ k ∉ dictKeys m := by
  induction m with
  | nil => simp [dictGet, dictKeys]
  | cons p t ih =>
      obtain ⟨k₀, v₀⟩ := p
      by_cases h₀ : k₀ = k
      · simp [dictGet, dictKeys, h₀]
      · simp [dictGet, dictKeys, h₀, ih, Ne.symm h₀]

theorem dictAssign_of_not_mem (m : List (α × β)) (k : α) (v : β)
    (h : k ∉ dictKeys m) : dictAssign m k v = m ++ [(k, v)] := by
  induction m with
  | nil => simp [dictAssign]
  | cons p t ih =>
      obtain ⟨k₀, v₀⟩ := p
      simp only [dictKeys, List.map_cons, List.mem_cons] at h
      push_neg at h
      simp [dictAssign, Ne.symm h.1, ih h.2]

theorem dictGet_mem (m : List (α × β)) (k : α) (v : β)
    (h : dictGet m k = some v) : (k, v) ∈ m := by
  induction m with
  | nil => simp [dictGet] at h
  | cons p t ih =>
      obtain ⟨k₀, v₀⟩ := p
      by_cases h₀ : k₀ = k
      · subst h₀
        simp [dictGet] at h
        simp [h]
      · simp [dictGet, h₀] at h
        exact List.mem_cons_of_mem _ (ih h)

theorem dictGet_of_mem_nodup (m : List (α × β)) (k : α) (v : β)
    (hnd : (dictKeys m).Nodup) (h : (k, v) ∈ m) : dictGet m k = some v := by
  induction m with
  | nil => simp at h
  | cons p t ih =>
      obtain ⟨k₀, v₀⟩ := p
      simp only [dictKeys, List.map_cons, List.nodup_cons] at hnd
      rcases List.mem_cons.1 h with h1 | h1
      · cases h1
        simp [dictGet]
      · have hk : k₀ ≠ k := by
          intro he
          subst he
          exact hnd.1 (List.mem_map.2 ⟨(k₀, v), h1, rfl⟩)
        simp [dictGet, hk, ih hnd.2 h1]

/-! Folding `dictAssign` over a list of pairs (repeated `d[k] = v`). -/

def dictAssignFold (m : List (α × β)) (ps : List (α × β)) : List (α × β) :=
  ps.foldl (fun acc p => dictAssign acc p.1 p.2) m

@[simp] theorem dictAssignFold_nil (m : List (α × β)) : dictAssignFold m [] = m := rfl

@[simp] theorem dictAssignFold_cons (m : List (α × β)) (p : α × β) (ps : List (α × β)) :
    dictAssignFold m (p :: ps) = dictAssignFold (dictAssign m p.1 p.2) ps := rfl

theorem dictGet_dictAssignFold_not_mem (m : List (α × β)) (ps : List (α × β)) (k : α)
    (h : k ∉ ps.map Prod.fst) : dictGet (dictAssignFold m ps) k = dictGet m k := by
  induction ps generalizing m with
  | nil => rfl
  | cons p t ih =>
      simp only [List.map_cons, List.mem_cons] at h
      push_neg at h
      rw [dictAssignFold_cons, ih _ h.2, dictGet_dictAssign_ne _ _ _ _ h.1]

theorem dictGet_dictAssignFold_of_mem (m : List (α × β)) (ps : List (α × β))
    (hnd : (ps.map Prod.fst).Nodup) (p : α × β) (hmem : p ∈ ps) :
    dictGet (dictAssignFold m ps) p.1 = some p.2 := by
  induction ps generalizing m with
  | nil => simp at hmem
  | cons q t ih =>
      simp only [List.map_cons, List.nodup_cons] at hnd
      rcases List.mem_cons.1 hmem with h1 | h1
      · subst h1
        rw [dictAssignFold_cons,
          dictGet_dictAssignFold_not_mem _ _ _ hnd.1,
          dictGet_dictAssign_self]
      · exact dictAssignFold_cons m q t ▸ ih _ hnd.2 h1

theorem mem_dictKeys_dictAssignFold (m : List (α × β)) (ps : List (α × β)) (k : α) :
    k ∈ dictKeys (dictAssignFold m ps) ↔ k ∈ dictKeys m ∨ k ∈ ps.map Prod.fst := by
  induction ps generalizing m with
  | nil => simp
  | cons p t ih =>
      rw [dictAssignFold_cons, ih]
      rw [mem_dictKeys_dictAssign]
      simp
      tauto

theorem dictAssignFold_fresh (m : List (α × β)) (ps : List (α × β))
    (hnd : (ps.map Prod.fst).Nodup) (hfresh : ∀ k ∈ ps.map Prod.fst, k ∉ dictKeys m) :
    dictAssignFold m ps = m ++ ps := by
  induction ps generalizing m with
  | nil => simp
  | cons p t ih =>
      simp only [List.map_cons, List.nodup_cons] at hnd
      have hp : p.1 ∉ dictKeys m := hfresh p.1 (by simp)
      have hfresh' : ∀ k ∈ t.map Prod.fst, k ∉ dictKeys (m ++ [(p.1, p.2)]) := by
        intro k hk
        rw [dictKeys, List.map_append]
        simp only [List.mem_append]
        push_neg
        constructor
        · exact hfresh k (by simp [hk])
        · intro hc
          simp at hc
          subst hc
          exact hnd.1 hk
      rw [dictAssignFold_cons, dictAssign_of_not_mem _ _ _ hp, ih _ hnd.2 hfresh']
      simp

/-! `dictAppendVal` lemmas. -/

theorem dictGet_dictAppendVal_self (m : List (α × List β)) (k : α) (x : β) :
    dictGet (dictAppendVal m k x) k = some ((dictGet m k).getD [] ++ [x]) := by
  induction m with
  | nil => simp [dictAppendVal, dictGet]
  | cons p t ih =>
      obtain ⟨k₀, l₀⟩ := p
      by_cases h₀ : k₀ = k
      · subst h₀
        simp [dictAppendVal, dictGet]
      · simp [dictAppendVal, dictGet, h₀, ih]

theorem dictGet_dictAppendVal_ne (m : List (α × List β)) (k k' : α) (x : β) (h : k' ≠ k) :
    dictGet (dictAppendVal m k x) k' = dictGet m k' := by
  induction m with
  | nil => simp [dictAppendVal, dictGet, Ne.symm h]
  | cons p t ih =>
      obtain ⟨k₀, l₀⟩ := p
      by_cases h₀ : k₀ = k
      · subst h₀
        simp [dictAppendVal, dictGet, Ne.symm h]
      · by_cases h₁ : k₀ = k'
        · simp [dictAppendVal, dictGet, h₀, h₁, h]
        · simp [dictAppendVal, dictGet, h₀, h₁, ih]

theorem mem_dictKeys_dictAppendVal (m : List (α × List β)) (k k' : α) (x : β) :
    k' ∈ dictKeys (dictAppendVal m k x) ↔ k' ∈ dictKeys m ∨ k' = k := by
  induction m with
  | nil => simp [dictAppendVal, dictKeys]
  | cons p t ih =>
      obtain ⟨k₀, l₀⟩ := p
      by_cases h₀ : k₀ = k
      · subst h₀
        simp [dictAppendVal, dictKeys]
        tauto
      · simp [dictAppendVal, dictKeys, h₀] at *
        tauto

theorem dictKeys_nodup_dictAppendVal (m : List (α × List β)) (k : α) (x : β)
    (h : (dictKeys m).Nodup) : (dictKeys (dictAppendVal m k x)).Nodup := by
  induction m with
  | nil => simp [dictAppendVal, dictKeys]
  | cons p t ih =>
      obtain ⟨k₀, l₀⟩ := p
      simp only [dictKeys, List.map_cons, List.nodup_cons] at h
      by_cases h₀ : k₀ = k
      · subst h₀
        simpa [dictAppendVal, dictKeys, List.nodup_cons] using h
      · have ht := ih h.2
        simp only [dictAppendVal, h₀, if_false, dictKeys, List.map_cons, List.nodup_cons]
        refine ⟨?_, ht⟩
        intro hmem
        rcases (mem_dictKeys_dictAppendVal t k k₀ x).1 hmem with hin | heq
        · exact h.1 hin
        · exact h₀ heq

/-! ## Byte buffers and slabs

A `bytearray` slab is a `List Nat`; `slab[lo:hi] = buf` (with
`len(buf) = hi - lo`) is `writeRange`, and reading `buf[lo:hi]` is
`byteSlice` (`lo`, length `hi - lo`).
-/

def byteSlice (s : List Nat) (lo len : Nat) : List Nat := (s.drop lo).take len

def writeRange (s : List Nat) (lo : Nat) (buf : List Nat) : List Nat :=
  s.take lo ++ buf ++ s.drop (lo + buf.length)

theorem byteSlice_getElem? (s : List Nat) (lo len i : Nat) :
    (byteSlice s lo len)[i]? = if i < len then s[lo + i]? else none := by
  rw [byteSlice, List.getElem?_take]
  by_cases h : i < len
  · simp [h, List.getElem?_drop]
  · simp [h]

theorem length_writeRange (s : List Nat) (lo : Nat) (buf : List Nat)
    (h : lo + buf.length ≤ s.length) : (writeRange s lo buf).length = s.length := by
  simp only [writeRange, List.length_append, List.length_take, List.length_drop]
  omega

theorem writeRange_getElem? (s : List Nat) (lo : Nat) (buf : List Nat) (j : Nat)
    (h : lo + buf.length ≤ s.length) :
    (writeRange s lo buf)[j]? =
      if j < lo then s[j]? else if j < lo + buf.length then buf[j - lo]? else s[j]? := by
  have hts : (s.take lo).length = lo := by
    rw [List.length_take]
    omega
  by_cases h1 : j < lo
  · rw [writeRange, List.append_assoc, List.getElem?_append_left (by omega : j < (s.take lo).length),
      List.getElem?_take]
    simp [h1]
  · rw [writeRange, List.append_assoc,
      List.getElem?_append_right (by omega : (s.take lo).length ≤ j), hts]
    by_cases h2 : j < lo + buf.length
    · rw [List.getElem?_append_left (by omega : j - lo < buf.length)]
      simp [h1, h2]
    · rw [List.getElem?_append_right (by omega : buf.length ≤ j - lo), List.getElem?_drop]
      have : lo + buf.length + (j - lo - buf.length) = j := by omega
      rw [this]
      simp [h1, h2]

theorem byteSlice_writeRange_self (s : List Nat) (lo : Nat) (buf : List Nat)
    (h : lo + buf.length ≤ s.length) :
    byteSlice (writeRange s lo buf) lo buf.length = buf := by
  apply List.ext_getElem?
  intro i
  rw [byteSlice_getElem?]
  by_cases hi : i < buf.length
  · rw [if_pos hi, writeRange_getElem? _ _ _ _ h, if_neg (by omega), if_pos (by omega)]
    congr 1
    omega
  · rw [if_neg hi, eq_comm]
    exact List.getElem?_eq_none (by omega)

theorem byteSlice_writeRange_disjoint (s : List Nat) (lo : Nat) (buf : List Nat)
    (lo₂ hi₂ : Nat) (h : lo + buf.length ≤ s.length)
    (hd : hi₂ ≤ lo ∨ lo + buf.length ≤ lo₂) :
    byteSlice (writeRange s lo buf) lo₂ (hi₂ - lo₂) = byteSlice s lo₂ (hi₂ - lo₂) := by
  apply List.ext_getElem?
  intro i
  rw [byteSlice_getElem?, byteSlice_getElem?]
  by_cases hi : i < hi₂ - lo₂
  · rw [if_pos hi, if_pos hi, writeRange_getElem? _ _ _ _ h]
    rcases hd with hd | hd
    · rw [if_pos (by omega)]
    · rw [if_neg (by omega), if_neg (by omega)]
  · rw [if_neg hi, if_neg hi]

/-! ## BatchedBufferStager

`BatchedBufferStager.__init__` sorts the byte ranges (Python tuple sort is
lexicographic) and walks them, requiring each range's lower bound to equal
the previous range's upper bound; `slab_sz_bytes` is the final upper bound.
An empty mapping raises `IndexError` on `byte_ranges[0]`.
-/

def rangeLex (a b : Nat × Nat) : Prop := a.1 < b.1 ∨ (a.1 = b.1 ∧ a.2 ≤ b.2)

instance : DecidableRel rangeLex := fun a b => by
  unfold rangeLex
  infer_instance

def sortRanges (rs : List (Nat × Nat)) : List (Nat × Nat) := rs.insertionSort rangeLex

def consecCheck : Nat → List (Nat × Nat) → Except String Nat
  | e, [] => .ok e
  | e, (lo, hi) :: t =>
      if lo = e then consecCheck hi t else .error "The byte ranges are not consecutive."

def stagerInit (ranges : List (Nat × Nat)) : Except String Nat :=
  match sortRanges ranges with
  | [] => .error "list index out of range"
  | (_, h0) :: rest => consecCheck h0 rest

/-- Two half-open byte ranges do not overlap. -/
def rangeDisjoint (p q : Nat × Nat) : Prop := p.2 ≤ q.1 ∨ q.2 ≤ p.1

theorem rangeDisjoint_symm {p q : Nat × Nat} (h : rangeDisjoint p q) : rangeDisjoint q p := by
  unfold rangeDisjoint at *
  tauto

theorem consecCheck_ok (l : List (Nat × Nat)) (e z : Nat)
    (hok : consecCheck e l = .ok z) (hwf : ∀ r ∈ l, r.1 ≤ r.2) :
    e ≤ z ∧ (∀ r ∈ l, e ≤ r.1 ∧ r.2 ≤ z) ∧
      l.Pairwise (fun p q => p.2 ≤ q.1) ∧
      (l.map (fun r => r.2 - r.1)).sum = z - e := by
  induction l generalizing e with
  | nil =>
      simp only [consecCheck, Except.ok.injEq] at hok
      subst hok
      simp
  | cons r t ih =>
      obtain ⟨lo, hi⟩ := r
      simp only [consecCheck] at hok
      by_cases hlo : lo = e
      · rw [if_pos hlo] at hok
        subst hlo
        have hwf' : ∀ r ∈ t, r.1 ≤ r.2 := fun r hr => hwf r (List.mem_cons_of_mem _ hr)
        have hlh : lo ≤ hi := hwf (lo, hi) (by simp)
        obtain ⟨hez, hbnd, hpw, hsum⟩ := ih hi hok hwf'
        refine ⟨by omega, ?_, ?_, ?_⟩
        · intro r hr
          rcases List.mem_cons.1 hr with h1 | h1
          · cases h1
            exact ⟨Nat.le_refl _, by omega⟩
          · have := hbnd r h1
            exact ⟨by omega, this.2⟩
        · exact List.pairwise_cons.2 ⟨fun q hq => (hbnd q hq).1, hpw⟩
        · simp only [List.map_cons, List.sum_cons, hsum]
          omega
      · rw [if_neg hlo] at hok
        exact absurd hok (by simp)

theorem sortRanges_perm (rs : List (Nat × Nat)) : (sortRanges rs).Perm rs :=
  List.perm_insertionSort rangeLex rs

/-- Structural consequences of a successful `BatchedBufferStager` construction:
the accepted ranges are pairwise disjoint, they all lie below the declared
slab size `z`, and they tile the interval `[a, z)` exactly, where `a` is the
least lower bound (which the constructor does NOT force to be `0`). -/
theorem stagerInit_ok_props (ranges : List (Nat × Nat)) (z : Nat)
    (hwf : ∀ r ∈ ranges, r.1 ≤ r.2) (hok : stagerInit ranges = .ok z) :
    ranges ≠ [] ∧ ranges.Pairwise rangeDisjoint ∧ (∀ r ∈ ranges, r.2 ≤ z) ∧
      ∃ a, (∃ r ∈ ranges, r.1 = a) ∧ (∀ r ∈ ranges, a ≤ r.1) ∧ a ≤ z ∧
        (ranges.map (fun r => r.2 - r.1)).sum = z - a := by
  have hperm := sortRanges_perm ranges
  unfold stagerInit at hok
  cases hs : sortRanges ranges with
  | nil =>
      rw [hs] at hok
      exact absurd hok (by simp)
  | cons hd rest =>
      obtain ⟨a, h0⟩ := hd
      rw [hs] at hok hperm
      have hmem : ∀ r ∈ (a, h0) :: rest, r ∈ ranges := fun r hr => hperm.mem_iff.1 hr
      have hwf' : ∀ r ∈ rest, r.1 ≤ r.2 :=
        fun r hr => hwf r (hmem r (List.mem_cons_of_mem _ hr))
      have hah : a ≤ h0 := hwf (a, h0) (hmem _ (by simp))
      obtain ⟨hez, hbnd, hpw, hsum⟩ := consecCheck_ok rest h0 z hok hwf'
      have hpw' : ((a, h0) :: rest).Pairwise (fun p q : Nat × Nat => p.2 ≤ q.1) :=
        List.pairwise_cons.2 ⟨fun q hq => (hbnd q hq).1, hpw⟩
      have hpwd : ((a, h0) :: rest).Pairwise rangeDisjoint :=
        hpw'.imp (fun h => Or.inl h)
      refine ⟨?_, ?_, ?_, a, ⟨(a, h0), hmem _ (by simp), rfl⟩, ?_, by omega, ?_⟩
      · intro hc
        rw [hc] at hperm
        exact absurd hperm.symm (by simp)
      · exact ((hperm.pairwise_iff (fun h => rangeDisjoint_symm h)).1 hpwd)
      · intro r hr
        rcases List.mem_cons.1 (hperm.symm.mem_iff.1 hr) with h1 | h1
        · cases h1
          exact hez
        · exact (hbnd r h1).2
      · intro r hr
        rcases List.mem_cons.1 (hperm.symm.mem_iff.1 hr) with h1 | h1
        · cases h1
          exact Nat.le_refl _
        · have := (hbnd r h1).1
          omega
      · have hmap : (ranges.map (fun r : Nat × Nat => r.2 - r.1)).sum
            = (((a, h0) :: rest).map (fun r : Nat × Nat => r.2 - r.1)).sum :=
          (hperm.map _).sum_eq.symm
        rw [hmap]
        simp only [List.map_cons, List.sum_cons, hsum]
        omega

/-! `stage_buffer`: allocate a zero slab of `slab_sz_bytes`, then for each
completed sub-buffer check its length against its assigned range and copy
it into the slab.  We model the sub-producers by the buffers they return
(`pairs` associates each byte range with the staged buffer), and the
completion order by the order of `pairs`, which the claims quantify over. -/

def sizeMismatchMsg (n : Nat) (br : Nat × Nat) : String :=
  "The size of the buffer generated by the buffer stager does not match " ++
    "with the byte range associated with the buffer stager. Buffer size: " ++
    toString n ++ ", byte range: " ++ toString br.1 ++ ":" ++ toString br.2 ++ "."

def stageStep (acc : Except String (List Nat)) (p : (Nat × Nat) × List Nat) :
    Except String (List Nat) :=
  acc.bind fun slab =>
    if p.2.length = p.1.2 - p.1.1 then .ok (writeRange slab p.1.1 p.2)
    else .error (sizeMismatchMsg p.2.length p.1)

def stage_buffer (slabSz : Nat) (pairs : List ((Nat × Nat) × List Nat)) :
    Except String (List Nat) :=
  pairs.foldl stageStep (.ok (List.replicate slabSz 0))

def stagePure (s : List Nat) (pairs : List ((Nat × Nat) × List Nat)) : List Nat :=
  pairs.foldl (fun sl p => writeRange sl p.1.1 p.2) s

theorem foldl_stageStep_error (pairs : List ((Nat × Nat) × List Nat)) (m : String) :
    pairs.foldl stageStep (.error m) = .error m := by
  induction pairs with
  | nil => rfl
  | cons p t ih => simpa [stageStep, Except.bind] using ih

theorem foldl_stageStep_ok (pairs : List ((Nat × Nat) × List Nat)) (s : List Nat)
    (hlen : ∀ p ∈ pairs, p.2.length = p.1.2 - p.1.1) :
    pairs.foldl stageStep (.ok s) = .ok (stagePure s pairs) := by
  induction pairs generalizing s with
  | nil => rfl
  | cons p t ih =>
      have hp := hlen p (by simp)
      simp only [List.foldl_cons, stageStep, Except.bind, hp, if_pos rfl, stagePure]
      rw [← stagePure]
      exact ih _ (fun q hq => hlen q (List.mem_cons_of_mem _ hq))

theorem foldl_stageStep_mismatch (pairs : List ((Nat × Nat) × List Nat)) (s : List Nat)
    (h : ∃ p ∈ pairs, p.2.length ≠ p.1.2 - p.1.1) :
    ∃ lo hi buf, ((lo, hi), buf) ∈ pairs ∧ buf.length ≠ hi - lo ∧
      pairs.foldl stageStep (.ok s) = .error (sizeMismatchMsg buf.length (lo, hi)) := by
  induction pairs generalizing s with
  | nil => simp at h
  | cons p t ih =>
      obtain ⟨⟨lo, hi⟩, buf⟩ := p
      by_cases hp : buf.length = hi - lo
      · have h' : ∃ q ∈ t, q.2.length ≠ q.1.2 - q.1.1 := by
          rcases h with ⟨q, hq, hqne⟩
          rcases List.mem_cons.1 hq with h1 | h1
          · cases h1
            exact absurd hp hqne
          · exact ⟨q, h1, hqne⟩
        obtain ⟨lo', hi', buf', hmem, hne, heq⟩ := ih (writeRange s lo buf) h'
        refine ⟨lo', hi', buf', List.mem_cons_of_mem _ hmem, hne, ?_⟩
        simpa [stageStep, Except.bind, hp] using heq
      · refine ⟨lo, hi, buf, by simp, hp, ?_⟩
        simp only [List.foldl_cons, stageStep, Except.bind, if_neg hp]
        exact foldl_stageStep_error t _

theorem length_stagePure (pairs : List ((Nat × Nat) × List Nat)) (s : List Nat)
    (hwf : ∀ p ∈ pairs, p.1.1 ≤ p.1.2) (hbound : ∀ p ∈ pairs, p.1.2 ≤ s.length)
    (hlen : ∀ p ∈ pairs, p.2.length = p.1.2 - p.1.1) :
    (stagePure s pairs).length = s.length := by
  induction pairs generalizing s with
  | nil => rfl
  | cons p t ih =>
      have h1 : p.1.1 + p.2.length ≤ s.length := by
        have := hwf p (by simp)
        have := hbound p (by simp)
        have := hlen p (by simp)
        omega
      have hl := length_writeRange s p.1.1 p.2 h1
      simp only [stagePure, List.foldl_cons]
      rw [← stagePure, ih _ (fun q hq => hwf q (List.mem_cons_of_mem _ hq))
        (fun q hq => by rw [hl]; exact hbound q (List.mem_cons_of_mem _ hq))
        (fun q hq => hlen q (List.mem_cons_of_mem _ hq)), hl]

theorem byteSlice_stagePure_disjoint (pairs : List ((Nat × Nat) × List Nat)) (s : List Nat)
    (lo₂ hi₂ : Nat)
    (hwf : ∀ p ∈ pairs, p.1.1 ≤ p.1.2) (hbound : ∀ p ∈ pairs, p.1.2 ≤ s.length)
    (hlen : ∀ p ∈ pairs, p.2.length = p.1.2 - p.1.1)
    (hd : ∀ p ∈ pairs, rangeDisjoint p.1 (lo₂, hi₂)) :
    byteSlice (stagePure s pairs) lo₂ (hi₂ - lo₂) = byteSlice s lo₂ (hi₂ - lo₂) := by
  induction pairs generalizing s with
  | nil => rfl
  | cons p t ih =>
      have h1 : p.1.1 + p.2.length ≤ s.length := by
        have := hwf p (by simp)
        have := hbound p (by simp)
        have := hlen p (by simp)
        omega
      have hl := length_writeRange s p.1.1 p.2 h1
      have hdp := hd p (by simp)
      simp only [stagePure, List.foldl_cons]
      rw [← stagePure, ih _ (fun q hq => hwf q (List.mem_cons_of_mem _ hq))
        (fun q hq => by rw [hl]; exact hbound q (List.mem_cons_of_mem _ hq))
        (fun q hq => hlen q (List.mem_cons_of_mem _ hq))
        (fun q hq => hd q (List.mem_cons_of_mem _ hq))]
      apply byteSlice_writeRange_disjoint _ _ _ _ _ h1
      have hle := hlen p (by simp)
      have hwfp := hwf p (by simp)
      rcases hdp with hcase | hcase
      · right
        simp only at hcase
        omega
      · left
        simpa using hcase

theorem byteSlice_stagePure_mem (pairs : List ((Nat × Nat) × List Nat)) (s : List Nat)
    (hdisj : (pairs.map Prod.fst).Pairwise rangeDisjoint)
    (hwf : ∀ p ∈ pairs, p.1.1 ≤ p.1.2) (hbound : ∀ p ∈ pairs, p.1.2 ≤ s.length)
    (hlen : ∀ p ∈ pairs, p.2.length = p.1.2 - p.1.1) :
    ∀ p ∈ pairs, byteSlice (stagePure s pairs) p.1.1 (p.1.2 - p.1.1) = p.2 := by
  induction pairs generalizing s with
  | nil => simp
  | cons q t ih =>
      have h1 : q.1.1 + q.2.length ≤ s.length := by
        have := hwf q (by simp)
        have := hbound q (by simp)
        have := hlen q (by simp)
        omega
      have hl := length_writeRange s q.1.1 q.2 h1
      rw [List.map_cons, List.pairwise_cons] at hdisj
      have hdisj' := hdisj
      intro p hp
      rcases List.mem_cons.1 hp with h1' | h1'
      · subst h1'
        simp only [stagePure, List.foldl_cons]
        rw [← stagePure]
        rw [byteSlice_stagePure_disjoint t (writeRange s p.1.1 p.2) p.1.1 p.1.2
          (fun r hr => hwf r (List.mem_cons_of_mem _ hr))
          (fun r hr => by rw [hl]; exact hbound r (List.mem_cons_of_mem _ hr))
          (fun r hr => hlen r (List.mem_cons_of_mem _ hr))
          (fun r hr => rangeDisjoint_symm (hdisj'.1 r.1 (List.mem_map.2 ⟨r, hr, rfl⟩)))]
        have hql := hlen p (by simp)
        rw [← hql]
        exact byteSlice_writeRange_self s p.1.1 p.2 h1
      · simp only [stagePure, List.foldl_cons]
        rw [← stagePure]
        exact ih (writeRange s q.1.1 q.2) hdisj'.2
          (fun r hr => hwf r (List.mem_cons_of_mem _ hr))
          (fun r hr => by rw [hl]; exact hbound r (List.mem_cons_of_mem _ hr))
          (fun r hr => hlen r (List.mem_cons_of_mem _ hr)) p h1'

/-! ## Manifest entries and write requests

`TensorEntry.sizeBytes` stands for
`TensorIOPreparer.get_tensor_size_from_entry(entry)` (an external exact-size
query).  A `ChunkedTensorEntry`'s chunks and a `ShardedTensorEntry`'s shards
are represented by their inner tensor entries, which is all
`batch_write_requests` touches.  `BufferStager.tensor` is a
`TensorBufferStager` (carrying its entry); `BufferStager.other` is any other
stager, for which `isinstance(wr.buffer_stager, TensorBufferStager)` is
false; `BufferStager.batchedSlab` is a built `BatchedBufferStager`.
-/

inductive Serializer where
  | torch_save
  | buffer_protocol
deriving DecidableEq, Repr

structure TensorEntry where
  location : String
  serializer : Serializer
  byte_range : Option (Nat × Nat)
  sizeBytes : Nat
deriving DecidableEq, Repr

inductive Entry where
  | tensor (t : TensorEntry)
  | chunked (chunks : List TensorEntry)
  | sharded (shards : List TensorEntry)
  | other (id : Nat)
deriving DecidableEq, Repr

inductive BufferStager where
  | tensor (entry : TensorEntry)
  | batchedSlab (pairs : List ((Nat × Nat) × BufferStager))
  | other (id : Nat)

structure WriteReq where
  path : String
  buffer_stager : BufferStager

/-- `is_batchable`: the entry is a plain `TensorEntry` (guaranteed here by
the typed `BufferStager.tensor` field, mirroring the `isinstance` check)
whose serializer is the buffer-protocol strategy. -/
def is_batchable (e : TensorEntry) : Bool := e.serializer == Serializer.buffer_protocol

/-- `slab_size_threshold_bytes or get_slab_size_threshold_bytes()`:
Python `or` replaces both `None` and the falsy `0` by the configured
default `d`. -/
def resolveThreshold : Option Nat → Nat → Nat
  | none, d => d
  | some 0, d => d
  | some (n + 1), _ => n + 1

/-- State of the slab-packing loop in `batch_write_requests`. -/
structure WBState where
  batched : List WriteReq
  slabLocs : List String
  slabs : List (List ((Nat × Nat) × BufferStager))
  currSz : Nat
  reloc : List (String × (String × (Nat × Nat)))

/-- `slabs[-1].add_buffer_stager(...)`: append to the last builder. -/
def pushLast {α : Type u} : List (List α) → α → List (List α)
  | [], x => [[x]]
  | [s], x => [s ++ [x]]
  | s :: t, x => s :: pushLast t x

def wbInit (g : Nat → String) : WBState :=
  { batched := [], slabLocs := [g 0], slabs := [[]], currSz := 0, reloc := [] }

/-- One iteration of the `for wr in write_reqs` loop.  `g n` models the
fresh location `os.path.join("batched", str(uuid.uuid4()))` generated for
the `n`-th slab. -/
def wbStep (T : Nat) (g : Nat → String) (st : WBState) (wr : WriteReq) : WBState :=
  match wr.buffer_stager with
  | .tensor e =>
      if is_batchable e = false then { st with batched := st.batched ++ [wr] }
      else if T ≤ e.sizeBytes then { st with batched := st.batched ++ [wr] }
      else
        let br := (st.currSz, st.currSz + e.sizeBytes)
        let slabs := pushLast st.slabs (br, wr.buffer_stager)
        let reloc := dictAssign st.reloc wr.path (st.slabLocs.getLastD "", br)
        let currSz := st.currSz + e.sizeBytes
        if T ≤ currSz then
          { batched := st.batched, slabs := slabs ++ [[]],
            slabLocs := st.slabLocs ++ [g st.slabLocs.length], currSz := 0, reloc := reloc }
        else
          { batched := st.batched, slabs := slabs, slabLocs := st.slabLocs,
            currSz := currSz, reloc := reloc }
  | _ => { st with batched := st.batched ++ [wr] }

def wbFinal (g : Nat → String) (T : Nat) (write_reqs : List WriteReq) : WBState :=
  write_reqs.foldl (wbStep T g) (wbInit g)

/-- `for slab_location, slab in zip(...)`: one write request per non-empty
slab, wrapping the built `BatchedBufferStager`. -/
def slabReqs (st : WBState) : List WriteReq :=
  (st.slabLocs.zip st.slabs).filterMap fun p =>
    if p.2.isEmpty then none else some ⟨p.1, .batchedSlab p.2⟩

/-! Entry lookup and relocation.  The loop registering
`location_to_entry[...] = ...` visits top-level `TensorEntry`s, then the
children of chunked and sharded entries; `registrations` lists those dict
assignments in program order and `buildLocIndex` replays them with dict
semantics, mapping a location to the position of the registered entry
(`(i, none)` = `entries[i]` itself, `(i, some j)` = child `j` of
`entries[i]`).  Relocation then mutates the entry found in the dict. -/

def childRegs (i : Nat) : Nat → List TensorEntry → List (String × (Nat × Option Nat))
  | _, [] => []
  | j, c :: t => (c.location, (i, some j)) :: childRegs i (j + 1) t

def entryRegs (i : Nat) : Entry → List (String × (Nat × Option Nat))
  | .tensor t => [(t.location, (i, none))]
  | .chunked cs => childRegs i 0 cs
  | .sharded ss => childRegs i 0 ss
  | .other _ => []

def regsAux : Nat → List Entry → List (String × (Nat × Option Nat))
  | _, [] => []
  | i, e :: t => entryRegs i e ++ regsAux (i + 1) t

def registrations (es : List Entry) : List (String × (Nat × Option Nat)) := regsAux 0 es

def registeredLocs (es : List Entry) : List String := (registrations es).map Prod.fst

def buildLocIndex (es : List Entry) : List (String × (Nat × Option Nat)) :=
  dictAssignFold [] (registrations es)

def setTensorFields (t : TensorEntry) (nl : String) (br : Nat × Nat) : TensorEntry :=
  { t with location := nl, byte_range := some br }

def listModify {α : Type u} : List α → Nat → (α → α) → List α
  | [], _, _ => []
  | a :: t, 0, f => f a :: t
  | a :: t, n + 1, f => a :: listModify t n f

/-- Mutating `location_to_entry[location]` in place: positional update of
the registered entry. -/
def relocateAt (es : List Entry) (p : Nat × Option Nat) (nl : String) (br : Nat × Nat) :
    List Entry :=
  match p with
  | (i, none) =>
      listModify es i fun e =>
        match e with
        | .tensor t => .tensor (setTensorFields t nl br)
        | e => e
  | (i, some j) =>
      listModify es i fun e =>
        match e with
        | .chunked cs => .chunked (listModify cs j (fun t => setTensorFields t nl br))
        | .sharded ss => .sharded (listModify ss j (fun t => setTensorFields t nl br))
        | e => e

/-- The `for location, (new_location, lower, upper) in relocation.items()`
loop: missing locations raise
`RuntimeError(f"The tensor entry with the location {location} is not passed
to batch_write.")`.  The deep copy of `entries` is the identity under value
semantics. -/
def applyRelocStep (idx : List (String × (Nat × Option Nat)))
    (acc : Except String (List Entry)) (r : String × (String × (Nat × Nat))) :
    Except String (List Entry) :=
  acc.bind fun es =>
    match dictGet idx r.1 with
    | none =>
        .error ("The tensor entry with the location " ++ r.1 ++
          " is not passed to batch_write.")
    | some p => .ok (relocateAt es p r.2.1 r.2.2)

def applyRelocs (entries : List Entry) (reloc : List (String × (String × (Nat × Nat)))) :
    Except String (List Entry) :=
  reloc.foldl (applyRelocStep (buildLocIndex entries)) (.ok entries)

/-- The body of `batch_write_requests` after the threshold default has been
resolved. -/
def batchWriteWithThreshold (g : Nat → String) (entries : List Entry)
    (write_reqs : List WriteReq) (T : Nat) : Except String (List Entry × List WriteReq) :=
  let st := wbFinal g T write_reqs
  (applyRelocs entries st.reloc).map fun es => (es, st.batched ++ slabReqs st)

def batch_write_requests (g : Nat → String) (entries : List Entry)
    (write_reqs : List WriteReq) (threshold? : Option Nat) (defaultT : Nat) :
    Except String (List Entry × List WriteReq) :=
  batchWriteWithThreshold g entries write_reqs (resolveThreshold threshold? defaultT)

/-! ## BatchedBufferConsumer and batch_read_requests

`BufferConsumer.base id cost` is an external consumer capability with an
identity and a declared `get_consuming_cost_bytes()`; `BufferConsumer.batched`
is a `BatchedBufferConsumer` with its `byte_range_to_buffer_consumer` dict
and `buf_sz_bytes`. -/

inductive BufferConsumer where
  | base (id : Nat) (cost : Nat)
  | batched (m : List ((Nat × Nat) × BufferConsumer)) (bufSz : Nat)

mutual

/-- `get_consuming_cost_bytes`: for the batched consumer, `buf_sz_bytes`
plus the sum of the sub-consumers' costs. -/
def consumingCost : BufferConsumer → Nat
  | .base _ c => c
  | .batched m sz => sz + consumingCostList m

def consumingCostList : List ((Nat × Nat) × BufferConsumer) → Nat
  | [] => 0
  | (_, c) :: t => consumingCost c + consumingCostList t

end

mutual

/-- `consume_buffer`: a base consumer receives the buffer it is fed (the
result lists which consumer id received which bytes); a batched consumer
feeds each sub-consumer its `buf[lo:hi]` slice. -/
def consumeBuffer : BufferConsumer → List Nat → List (Nat × List Nat)
  | .base id _, buf => [(id, buf)]
  | .batched m _, buf => consumeList m buf

def consumeList : List ((Nat × Nat) × BufferConsumer) → List Nat → List (Nat × List Nat)
  | [], _ => []
  | ((lo, hi), c) :: t, buf => consumeBuffer c (byteSlice buf lo (hi - lo)) ++ consumeList t buf

end

structure ReadReq where
  path : String
  buffer_consumer : BufferConsumer
  byte_range : Option (Nat × Nat)

/-- State of the first loop of `batch_read_requests`: pass-through
requests, `location_to_ranged_read_reqs` (a `defaultdict(list)`), and
`location_to_byte_range`. -/
structure RBState where
  batched : List ReadReq
  groups : List (String × List ReadReq)
  ranges : List (String × (Nat × Nat))

def rbInit : RBState := { batched := [], groups := [], ranges := [] }

def rbStep (st : RBState) (rr : ReadReq) : RBState :=
  match rr.byte_range with
  | none => { st with batched := st.batched ++ [rr] }
  | some br =>
      let groups := dictAppendVal st.groups rr.path rr
      let prev :=
        match dictGet st.ranges rr.path with
        | none => br
        | some p => p
      let ranges := dictAssign st.ranges rr.path
        (Nat.min prev.1 br.1, Nat.max prev.2 br.2)
      { batched := st.batched, groups := groups, ranges := ranges }

/-- Second loop body: merge one location's ranged requests.  `lower` is the
covering range's lower bound; each request's byte range is translated by
`- lower` and keyed into the consumer dict (identical adjusted ranges
overwrite).  `buf_sz_bytes` is computed from the Python loop variable
`byte_range`, i.e. the LAST request's byte range, not the covering range.
The `none` defaults are unreachable for states produced by `rbStep`
(the source raises `AssertionError("It's impossible ...")` there). -/
def mergeGroup (ranges : List (String × (Nat × Nat))) (loc : String)
    (rrs : List ReadReq) : ReadReq :=
  let lower :=
    match dictGet ranges loc with
    | some p => p.1
    | none => 0
  let m := rrs.foldl
    (fun m rr =>
      match rr.byte_range with
      | none => m
      | some br => dictAssign m (br.1 - lower, br.2 - lower) rr.buffer_consumer)
    []
  let lastBr := (rrs.filterMap (fun rr => rr.byte_range)).getLastD (0, 0)
  { path := loc,
    buffer_consumer := .batched m (lastBr.2 - lastBr.1),
    byte_range := some ((dictGet ranges loc).getD (0, 0)) }

def batch_read_requests (read_reqs : List ReadReq) : List ReadReq :=
  let st := read_reqs.foldl rbStep rbInit
  st.batched ++ st.groups.map fun p => mergeGroup st.ranges p.1 p.2

/-- The ranged read requests for location `l`, in input order. -/
def rangedReqsAt (l : String) (rrs : List ReadReq) : List ReadReq :=
  rrs.filter fun rr => rr.path == l && rr.byte_range.isSome

/-- The byte ranges requested for location `l`, in input order. -/
def rangesAt (l : String) (rrs : List ReadReq) : List (Nat × Nat) :=
  (rangedReqsAt l rrs).filterMap fun rr => rr.byte_range

/-! ## Invariants of the slab-packing loop

`slabTotal` is a slab builder's accumulated byte size, `slabChainFromEnd c
slab = some e` says the slab's byte ranges are consecutive starting at `c`
(each lower bound equals the previous upper bound, ranges well-formed) and
end at offset `e`, and `sealedSlabOk` is the "sealed as soon as the
accumulated size reaches or exceeds the threshold" property: the total is
at or over `T` while every proper prefix is under `T`. -/

def slabTotal (slab : List ((Nat × Nat) × BufferStager)) : Nat :=
  (slab.map fun p => p.1.2 - p.1.1).sum

def slabChainFromEnd : Nat → List ((Nat × Nat) × BufferStager) → Option Nat
  | c, [] => some c
  | c, p :: t => if p.1.1 = c ∧ c ≤ p.1.2 then slabChainFromEnd p.1.2 t else none

def sealedSlabOk (T : Nat) (slab : List ((Nat × Nat) × BufferStager)) : Prop :=
  T ≤ slabTotal slab ∧ ∀ n, n < slab.length → slabTotal (slab.take n) < T

theorem pushLast_eq {α : Type u} (l : List (List α)) (x : α) (hl : l ≠ []) :
    pushLast l x = l.dropLast ++ [l.getLastD [] ++ [x]] := by
  induction l with
  | nil => exact absurd rfl hl
  | cons s t ih =>
      cases t with
      | nil => simp [pushLast]
      | cons s' t' =>
          simp only [pushLast, ih (by simp)]
          simp [List.dropLast_cons_of_ne_nil]

theorem slabChainFromEnd_append (slab : List ((Nat × Nat) × BufferStager))
    (c e s : Nat) (b : BufferStager) (h : slabChainFromEnd c slab = some e) :
    slabChainFromEnd c (slab ++ [((e, e + s), b)]) = some (e + s) := by
  induction slab generalizing c with
  | nil =>
      simp only [slabChainFromEnd, Option.some.injEq] at h
      subst h
      simp [slabChainFromEnd]
  | cons p t ih =>
      simp only [List.cons_append, slabChainFromEnd] at h ⊢
      by_cases hp : p.1.1 = c ∧ c ≤ p.1.2
      · rw [if_pos hp] at h ⊢
        exact ih _ h
      · rw [if_neg hp] at h
        exact absurd h (by simp)

theorem slabChainFromEnd_total (slab : List ((Nat × Nat) × BufferStager))
    (c e : Nat) (h : slabChainFromEnd c slab = some e) :
    slabTotal slab = e - c ∧ c ≤ e := by
  induction slab generalizing c with
  | nil =>
      simp only [slabChainFromEnd, Option.some.injEq] at h
      subst h
      simp [slabTotal]
  | cons p t ih =>
      simp only [slabChainFromEnd] at h
      by_cases hp : p.1.1 = c ∧ c ≤ p.1.2
      · rw [if_pos hp] at h
        obtain ⟨ht, hce⟩ := ih _ h
        constructor
        · simp only [slabTotal, List.map_cons, List.sum_cons] at *
          omega
        · omega
      · rw [if_neg hp] at h
        exact absurd h (by simp)

theorem slabTotal_take_le (slab : List ((Nat × Nat) × BufferStager)) (n : Nat) :
    slabTotal (slab.take n) ≤ slabTotal slab := by
  induction slab generalizing n with
  | nil => simp
  | cons p t ih =>
      cases n with
      | zero => simp [slabTotal]
      | succ m =>
          simp only [List.take_succ_cons, slabTotal, List.map_cons, List.sum_cons]
          exact Nat.add_le_add_left (ih m) _

theorem slabTotal_concat (slab : List ((Nat × Nat) × BufferStager))
    (p : (Nat × Nat) × BufferStager) :
    slabTotal (slab ++ [p]) = slabTotal slab + (p.1.2 - p.1.1) := by
  simp [slabTotal]

/-- Loop invariant of the slab-packing pass: all sealed slabs (everything
but the last builder) were sealed exactly when their total first reached
`T` and have consecutive ranges from offset `0`; the current builder's
ranges are consecutive from `0` and end at `curr_slab_sz_bytes < T`. -/
structure WBInv (T : Nat) (st : WBState) : Prop where
  slabsNe : st.slabs ≠ []
  sealedOk : ∀ slab ∈ st.slabs.dropLast,
    sealedSlabOk T slab ∧ ∃ e, slabChainFromEnd 0 slab = some e
  lastChain : slabChainFromEnd 0 (st.slabs.getLastD []) = some st.currSz
  lastLt : st.currSz < T

theorem wbInv_init (T : Nat) (g : Nat → String) (hT : 0 < T) : WBInv T (wbInit g) := by
  refine ⟨by simp [wbInit], ?_, ?_, hT⟩
  · intro slab hs
    simp [wbInit] at hs
  · simp [wbInit, slabChainFromEnd]

theorem wbInv_step (T : Nat) (g : Nat → String) (st : WBState) (wr : WriteReq)
    (hT : 0 < T) (hinv : WBInv T st) : WBInv T (wbStep T g st wr) := by
  obtain ⟨hne, hsealed, hchain, hlt⟩ := hinv
  cases hb : wr.buffer_stager with
  | batchedSlab ps =>
      simp only [wbStep, hb]
      exact ⟨hne, hsealed, hchain, hlt⟩
  | other n =>
      simp only [wbStep, hb]
      exact ⟨hne, hsealed, hchain, hlt⟩
  | tensor e =>
      simp only [wbStep, hb]
      by_cases hbat : is_batchable e = false
      · rw [if_pos hbat]
        exact ⟨hne, hsealed, hchain, hlt⟩
      · rw [if_neg hbat]
        by_cases hsz : T ≤ e.sizeBytes
        · rw [if_pos hsz]
          exact ⟨hne, hsealed, hchain, hlt⟩
        · rw [if_neg hsz]
          have hpush := pushLast_eq st.slabs ((st.currSz, st.currSz + e.sizeBytes),
            BufferStager.tensor e) hne
          set newLast := st.slabs.getLastD [] ++
            [((st.currSz, st.currSz + e.sizeBytes), BufferStager.tensor e)] with hnewLast
          have hchain' : slabChainFromEnd 0 newLast = some (st.currSz + e.sizeBytes) :=
            slabChainFromEnd_append _ _ _ _ _ hchain
          have htotLast : slabTotal (st.slabs.getLastD []) = st.currSz := by
            have := slabChainFromEnd_total _ _ _ hchain
            omega
          have htotNew : slabTotal newLast = st.currSz + e.sizeBytes := by
            rw [hnewLast, slabTotal_concat, htotLast]
            simp
          by_cases hseal : T ≤ st.currSz + e.sizeBytes
          · rw [if_pos hseal]
            refine ⟨by simp, ?_, ?_, hT⟩
            · intro slab hs
              rw [hpush] at hs
              rw [List.dropLast_concat] at hs
              rcases List.mem_append.1 hs with hs | hs
              · exact hsealed slab hs
              · have hslab : slab = newLast := by simpa using hs
                subst hslab
                refine ⟨⟨by omega, ?_⟩, ⟨_, hchain'⟩⟩
                intro n hn
                have hlen : (st.slabs.getLastD []).length + 1 = newLast.length := by
                  simp [hnewLast]
                have hn' : n ≤ (st.slabs.getLastD []).length := by omega
                rw [hnewLast, List.take_append_of_le_length hn']
                calc slabTotal ((st.slabs.getLastD []).take n)
                    ≤ slabTotal (st.slabs.getLastD []) := slabTotal_take_le _ _
                  _ < T := by omega
            · rw [hpush, List.getLastD_concat]
              simp [slabChainFromEnd]
          · rw [if_neg hseal]
            refine ⟨by rw [hpush]; simp, ?_, ?_,
              by show st.currSz + e.sizeBytes < T; omega⟩
            · intro slab hs
              rw [hpush, List.dropLast_concat] at hs
              exact hsealed slab hs
            · rw [hpush, List.getLastD_concat]
              exact hchain'

theorem wbInv_final (T : Nat) (g : Nat → String) (wrs : List WriteReq) (hT : 0 < T) :
    WBInv T (wbFinal g T wrs) := by
  rw [wbFinal]
  generalize hst : wbInit g = st0
  have h0 : WBInv T st0 := hst ▸ wbInv_init T g hT
  clear hst
  induction wrs generalizing st0 with
  | nil => exact h0
  | cons wr t ih => exact ih _ (wbInv_step T g st0 wr hT h0)

/-! ## Concrete inputs used by the claims -/

/-- Deterministic stand-in for the per-slab
`os.path.join("batched", str(uuid.uuid4()))` location generator. -/
def gB : Nat → String := fun n => "batched/" ++ toString n

def fooE : TensorEntry := ⟨"dir/foo", .buffer_protocol, none, 31457280⟩
def barE : TensorEntry := ⟨"dir/bar", .buffer_protocol, none, 31457280⟩
def bazE : TensorEntry := ⟨"dir/baz", .buffer_protocol, none, 31457280⟩
def quxE : TensorEntry := ⟨"dir/qux", .buffer_protocol, none, 31457280⟩

def entries30 : List Entry := [.tensor fooE, .tensor barE, .tensor bazE, .tensor quxE]

def wreqs30 : List WriteReq :=
  [⟨"dir/foo", .tensor fooE⟩, ⟨"dir/bar", .tensor barE⟩,
   ⟨"dir/baz", .tensor bazE⟩, ⟨"dir/qux", .tensor quxE⟩]

theorem mem_dropLast_or_getLastD {γ : Type u} (l : List γ) (x d : γ) (h : x ∈ l) :
    x ∈ l.dropLast ∨ x = l.getLastD d := by
  induction l with
  | nil => simp at h
  | cons a t ih =>
      cases t with
      | nil =>
          simp at h
          simp [h]
      | cons b t' =>
          rcases List.mem_cons.1 h with h1 | h1
          · subst h1
            left
            simp [List.dropLast_cons_of_ne_nil]
          · rcases ih h1 with h2 | h2
            · left
              simp [List.dropLast_cons_of_ne_nil, h2]
            · right
              simpa using h2

/-! ## Claims -/

/-- C1: four batching-eligible 30 MB (= 31457280-byte) buffer-protocol write
requests with a 50 MB (= 52428800-byte) threshold produce exactly two slab
write requests — `foo,bar` in slab 0 at byte ranges `[0,30MB)` and
`[30MB,60MB)`, `baz,qux` in slab 1 likewise — and all four returned entries'
locations and byte ranges point into their slab.  More generally the packing
is greedy in input order: every sealed slab's byte ranges are consecutive
from offset 0 and its accumulated size first reached the threshold at its
last element (every proper prefix is under the threshold), while the
trailing unsealed slab stays strictly under the threshold. -/
theorem write_batching_end_to_end_scenario :
    batch_write_requests gB entries30 wreqs30 (some 52428800) 0 =
      .ok ([.tensor ⟨"batched/0", .buffer_protocol, some (0, 31457280), 31457280⟩,
            .tensor ⟨"batched/0", .buffer_protocol, some (31457280, 62914560), 31457280⟩,
            .tensor ⟨"batched/1", .buffer_protocol, some (0, 31457280), 31457280⟩,
            .tensor ⟨"batched/1", .buffer_protocol, some (31457280, 62914560), 31457280⟩],
           [⟨"batched/0", .batchedSlab
              [((0, 31457280), .tensor fooE), ((31457280, 62914560), .tensor barE)]⟩,
            ⟨"batched/1", .batchedSlab
              [((0, 31457280), .tensor bazE), ((31457280, 62914560), .tensor quxE)]⟩]) ∧
    ∀ (g : Nat → String) (wrs : List WriteReq) (T : Nat), 0 < T →
      (∀ slab ∈ (wbFinal g T wrs).slabs.dropLast, sealedSlabOk T slab) ∧
      (∀ slab ∈ (wbFinal g T wrs).slabs, ∃ e, slabChainFromEnd 0 slab = some e) ∧
      slabTotal ((wbFinal g T wrs).slabs.getLastD []) < T := by
  refine ⟨by rfl, fun g wrs T hT => ?_⟩
  obtain ⟨hne, hsealed, hchain, hlt⟩ := wbInv_final T g wrs hT
  refine ⟨fun slab hs => (hsealed slab hs).1, ?_, ?_⟩
  · intro slab hs
    rcases mem_dropLast_or_getLastD _ slab [] hs with h1 | h1
    · exact (hsealed slab h1).2
    · subst h1
      exact ⟨_, hchain⟩
  · have := slabChainFromEnd_total _ _ _ hchain
    omega

/-- C1 witness: the general greedy/sealing properties instantiated at the
concrete four-request scenario with threshold 52428800. -/
theorem write_batching_end_to_end_scenario_witness :
    (∀ slab ∈ (wbFinal gB 52428800 wreqs30).slabs.dropLast, sealedSlabOk 52428800 slab) ∧
    (∀ slab ∈ (wbFinal gB 52428800 wreqs30).slabs, ∃ e, slabChainFromEnd 0 slab = some e) ∧
    slabTotal ((wbFinal gB 52428800 wreqs30).slabs.getLastD []) < 52428800 :=
  write_batching_end_to_end_scenario.2 gB wreqs30 52428800 (by decide)

/-- C3 counterexample: the constructor accepts the singleton byte range
`[5,10)`, which does not tile `[0, total)` (its sorted sequence starts at
5, not 0), and declares size 10, which is not the total span 5 — the claim
says this construction must fail and that the declared size equals the
span. -/
theorem stager_construction_accepts_non_tiling :
    stagerInit [(5, 10)] = .ok 10 ∧ (5 : Nat) ≠ 0 ∧ (10 : Nat) ≠ 10 - 5 := by
  refine ⟨by rfl, by decide, by decide⟩

/-- C3 (amended): construction only checks that the lexicographically
sorted ranges are consecutive — each range's lower bound equals the
previous range's upper bound — without forcing the first lower bound to be
0.  Every accepted set of well-formed ranges is non-empty, pairwise
disjoint, and tiles `[a, z)` exactly, where `a` is the least lower bound
and `z` the declared slab size (= greatest upper bound): the range lengths
sum to `z - a`. -/
theorem stager_construction_check (ranges : List (Nat × Nat)) (z : Nat)
    (hwf : ∀ r ∈ ranges, r.1 ≤ r.2) (hok : stagerInit ranges = .ok z) :
    ranges ≠ [] ∧ ranges.Pairwise rangeDisjoint ∧ (∀ r ∈ ranges, r.2 ≤ z) ∧
      ∃ a, (∃ r ∈ ranges, r.1 = a) ∧ (∀ r ∈ ranges, a ≤ r.1) ∧ a ≤ z ∧
        (ranges.map (fun r => r.2 - r.1)).sum = z - a :=
  stagerInit_ok_props ranges z hwf hok

/-- C3 witness: the accepted two-range set `[5,10), [10,12)` tiles
`[5, 12)`. -/
theorem stager_construction_check_witness :
    [(5, 10), (10, 12)] ≠ ([] : List (Nat × Nat)) ∧
      List.Pairwise rangeDisjoint [(5, 10), (10, 12)] ∧
      (∀ r ∈ [(5, 10), (10, 12)], r.2 ≤ 12) ∧
      ∃ a, (∃ r ∈ [(5, 10), (10, 12)], r.1 = a) ∧
        (∀ r ∈ [(5, 10), (10, 12)], a ≤ r.1) ∧ a ≤ 12 ∧
        ([(5, 10), (10, 12)].map (fun r : Nat × Nat => r.2 - r.1)).sum = 12 - a :=
  stager_construction_check [(5, 10), (10, 12)] 12 (by decide) (by rfl)

/-- C5: if any sub-producer's staged buffer length differs from its
assigned range's length, `stage_buffer` fails with the size-mismatch
error (for some offending pair) — the slab is never silently truncated or
padded. -/
theorem stage_buffer_size_mismatch_fails (slabSz : Nat)
    (pairs : List ((Nat × Nat) × List Nat))
    (h : ∃ p ∈ pairs, p.2.length ≠ p.1.2 - p.1.1) :
    ∃ lo hi buf, ((lo, hi), buf) ∈ pairs ∧ buf.length ≠ hi - lo ∧
      stage_buffer slabSz pairs = .error (sizeMismatchMsg buf.length (lo, hi)) :=
  foldl_stageStep_mismatch pairs (List.replicate slabSz 0) h

/-- C5 witness: a producer for range `[3,5)` returning a 1-byte buffer
makes staging fail. -/
theorem stage_buffer_size_mismatch_fails_witness :
    ∃ lo hi buf, ((lo, hi), buf) ∈ [((0, 3), [1, 2, 3]), ((3, 5), [9])] ∧
      buf.length ≠ hi - lo ∧
      stage_buffer 5 [((0, 3), [1, 2, 3]), ((3, 5), [9])] =
        .error (sizeMismatchMsg buf.length (lo, hi)) :=
  stage_buffer_size_mismatch_fails 5 [((0, 3), [1, 2, 3]), ((3, 5), [9])] (by decide)

def rrC7a : ReadReq := ⟨"f", .base 1 7, some (0, 100)⟩
def rrC7b : ReadReq := ⟨"f", .base 2 9, some (100, 150)⟩

/-- C7: evidence of the divergence.  Merging ranged requests `[0,100)` and
`[100,150)` for `"f"` produces one request covering `[0,150)`, but the
`BatchedBufferConsumer` is constructed with `buf_sz_bytes` taken from the
leaked loop variable `byte_range` — the LAST request's range `[100,150)`,
i.e. 50 — so `get_consuming_cost_bytes()` returns `50 + 7 + 9 = 66`,
whereas the claimed covering-range cost is `(150 - 0) + (7 + 9) = 166`. -/
theorem consuming_cost_uses_last_range_not_covering :
    batch_read_requests [rrC7a, rrC7b] =
      [⟨"f", .batched [((0, 100), .base 1 7), ((100, 150), .base 2 9)] 50,
        some (0, 150)⟩] ∧
    consumingCost (.batched [((0, 100), .base 1 7), ((100, 150), .base 2 9)] 50) = 66 ∧
    (150 - 0) + (7 + 9) = 166 ∧ (66 : Nat) ≠ 166 := by
  refine ⟨by rfl, by rfl, by rfl, by decide⟩

/-- C9: two ranged read requests with the same location and identical byte
ranges are merged into one request whose consumer dict holds only the
LATER request's consumer (the dict assignment of the identical adjusted
range overwrites the earlier one), and consuming the merged buffer feeds
only that later consumer — the earlier consumer is silently dropped. -/
theorem duplicate_range_drops_earlier_consumer (l : String) (a b : Nat)
    (c₁ c₂ : BufferConsumer) :
    batch_read_requests [⟨l, c₁, some (a, b)⟩, ⟨l, c₂, some (a, b)⟩] =
      [⟨l, .batched [((0, b - a), c₂)] (b - a), some (a, b)⟩] ∧
    ∀ buf, consumeBuffer (.batched [((0, b - a), c₂)] (b - a)) buf =
      consumeBuffer c₂ (byteSlice buf 0 (b - a)) := by
  constructor
  · simp [batch_read_requests, rbInit, rbStep, dictAppendVal, dictAssign, dictGet,
      mergeGroup, Nat.sub_self]
  · intro buf
    simp [consumeBuffer, consumeList, Nat.sub_zero]

/-- C10: the slab-size threshold default is applied with a Python
truthiness check (`slab_size_threshold_bytes or get_slab_size_threshold_bytes()`),
so an explicit threshold of 0 behaves exactly like an absent threshold —
both run the batching body with the external configuration default `d` —
while every positive explicit threshold `t` is used as given. -/
theorem zero_threshold_replaced_by_default (g : Nat → String) (es : List Entry)
    (wrs : List WriteReq) (d t : Nat) (ht : 0 < t) :
    batch_write_requests g es wrs (some 0) d = batchWriteWithThreshold g es wrs d ∧
    batch_write_requests g es wrs none d = batchWriteWithThreshold g es wrs d ∧
    batch_write_requests g es wrs (some t) d = batchWriteWithThreshold g es wrs t := by
  refine ⟨rfl, rfl, ?_⟩
  cases t with
  | zero => exact absurd ht (by decide)
  | succ n => rfl

/-- C10 witness: instantiated at the concrete four-request input with
default 52428800 and explicit threshold 7. -/
theorem zero_threshold_replaced_by_default_witness :
    batch_write_requests gB entries30 wreqs30 (some 0) 52428800 =
      batchWriteWithThreshold gB entries30 wreqs30 52428800 ∧
    batch_write_requests gB entries30 wreqs30 none 52428800 =
      batchWriteWithThreshold gB entries30 wreqs30 52428800 ∧
    batch_write_requests gB entries30 wreqs30 (some 7) 52428800 =
      batchWriteWithThreshold gB entries30 wreqs30 7 :=
  zero_threshold_replaced_by_default gB entries30 wreqs30 52428800 7 (by decide)

/-- C8: for a validly constructed slab whose sub-producers return buffers
of exactly their assigned ranges' lengths, staging succeeds and re-slicing
the staged slab at each assigned byte range reproduces that producer's
buffer byte for byte; the statement quantifies over every completion order
(`pairs` lists the completions in an arbitrary order). -/
theorem staged_slab_round_trip (pairs : List ((Nat × Nat) × List Nat)) (slabSz : Nat)
    (hinit : stagerInit (pairs.map Prod.fst) = .ok slabSz)
    (hwf : ∀ p ∈ pairs, p.1.1 ≤ p.1.2)
    (hlen : ∀ p ∈ pairs, p.2.length = p.1.2 - p.1.1) :
    ∃ out, stage_buffer slabSz pairs = .ok out ∧ out.length = slabSz ∧
      ∀ p ∈ pairs, byteSlice out p.1.1 (p.1.2 - p.1.1) = p.2 := by
  have hwf' : ∀ r ∈ pairs.map Prod.fst, r.1 ≤ r.2 := by
    intro r hr
    obtain ⟨p, hp, rfl⟩ := List.mem_map.1 hr
    exact hwf p hp
  obtain ⟨-, hdisj, hbnd, -⟩ := stagerInit_ok_props _ _ hwf' hinit
  have hbnd' : ∀ p ∈ pairs, p.1.2 ≤ (List.replicate slabSz 0).length := by
    intro p hp
    rw [List.length_replicate]
    exact hbnd p.1 (List.mem_map.2 ⟨p, hp, rfl⟩)
  refine ⟨stagePure (List.replicate slabSz 0) pairs,
    foldl_stageStep_ok pairs _ hlen, ?_, ?_⟩
  · rw [length_stagePure pairs _ hwf hbnd' hlen, List.length_replicate]
  · exact byteSlice_stagePure_mem pairs _ hdisj hwf hbnd' hlen

/-- C8 witness: two producers for `[0,2)` and `[2,5)` returning `[5,6]` and
`[7,8,9]`; the staged slab re-slices to the original buffers. -/
theorem staged_slab_round_trip_witness :
    ∃ out, stage_buffer 5 [((0, 2), [5, 6]), ((2, 5), [7, 8, 9])] = .ok out ∧
      out.length = 5 ∧
      ∀ p ∈ [((0, 2), [5, 6]), ((2, 5), [7, 8, 9])],
        byteSlice out p.1.1 (p.1.2 - p.1.1) = p.2 :=
  staged_slab_round_trip [((0, 2), [5, 6]), ((2, 5), [7, 8, 9])] 5
    (by rfl) (by decide) (by decide)

/-! ## Behaviour of the read-batching loop

Compositional characterisations of the first loop of
`batch_read_requests`: the pass-through list, the per-location request
groups and the per-location covering ranges, each expressed as a fold over
the ranged requests for one location. -/

def combineG (o : Option (List ReadReq)) (new : List ReadReq) : Option (List ReadReq) :=
  new.foldl (fun o rr => some (o.getD [] ++ [rr])) o

def combineR (o : Option (Nat × Nat)) (brs : List (Nat × Nat)) : Option (Nat × Nat) :=
  brs.foldl
    (fun o br =>
      let prev := match o with | none => br | some p => p
      some (Nat.min prev.1 br.1, Nat.max prev.2 br.2))
    o

theorem rangedReqsAt_cons (l : String) (rr : ReadReq) (t : List ReadReq) :
    rangedReqsAt l (rr :: t) =
      if rr.path == l && rr.byte_range.isSome then rr :: rangedReqsAt l t
      else rangedReqsAt l t := by
  simp only [rangedReqsAt, List.filter_cons]

theorem foldl_rbStep_batched (rrs : List ReadReq) (s : RBState) :
    (rrs.foldl rbStep s).batched =
      s.batched ++ rrs.filter (fun rr => rr.byte_range.isNone) := by
  induction rrs generalizing s with
  | nil => simp
  | cons rr t ih =>
      rw [List.foldl_cons, ih]
      cases hbr : rr.byte_range with
      | none => simp [rbStep, hbr]
      | some br => simp [rbStep, hbr]

theorem foldl_rbStep_groups (rrs : List ReadReq) (s : RBState) (l : String) :
    dictGet (rrs.foldl rbStep s).groups l =
      combineG (dictGet s.groups l) (rangedReqsAt l rrs) := by
  induction rrs generalizing s with
  | nil => simp [rangedReqsAt, combineG]
  | cons rr t ih =>
      rw [List.foldl_cons, ih, rangedReqsAt_cons]
      cases hbr : rr.byte_range with
      | none => simp [rbStep, hbr]
      | some br =>
          by_cases hp : rr.path = l
          · subst hp
            simp only [hbr, Option.isSome_some, Bool.and_true, beq_self_eq_true,
              if_pos]
            rw [show (rbStep s rr).groups = dictAppendVal s.groups rr.path rr by
              simp [rbStep, hbr]]
            rw [dictGet_dictAppendVal_self]
            simp [combineG]
          · have hp' : (rr.path == l) = false := beq_eq_false_iff_ne.2 hp
            simp only [hp', Bool.false_and, if_neg Bool.false_ne_true]
            rw [show (rbStep s rr).groups = dictAppendVal s.groups rr.path rr by
              simp [rbStep, hbr]]
            rw [dictGet_dictAppendVal_ne _ _ _ _ (Ne.symm hp)]

theorem foldl_rbStep_ranges (rrs : List ReadReq) (s : RBState) (l : String) :
    dictGet (rrs.foldl rbStep s).ranges l =
      combineR (dictGet s.ranges l) (rangesAt l rrs) := by
  induction rrs generalizing s with
  | nil => simp [rangesAt, rangedReqsAt, combineR]
  | cons rr t ih =>
      rw [List.foldl_cons, ih]
      have hra : rangesAt l (rr :: t) =
          (if rr.path == l && rr.byte_range.isSome then rr :: rangedReqsAt l t
            else rangedReqsAt l t).filterMap (fun rr => rr.byte_range) := by
        rw [rangesAt, rangedReqsAt_cons]
      cases hbr : rr.byte_range with
      | none => simp [rbStep, hbr, rangesAt, rangedReqsAt_cons]
      | some br =>
          by_cases hp : rr.path = l
          · subst hp
            rw [hra]
            simp only [hbr, Option.isSome_some, Bool.and_true, beq_self_eq_true, if_pos,
              List.filterMap_cons]
            rw [show (rbStep s rr).ranges = dictAssign s.ranges rr.path
                (Nat.min (match dictGet s.ranges rr.path with
                  | none => br | some p => p).1 br.1,
                 Nat.max (match dictGet s.ranges rr.path with
                  | none => br | some p => p).2 br.2) by
              simp [rbStep, hbr]]
            rw [dictGet_dictAssign_self]
            simp [combineR, rangesAt, hbr]
          · have hp' : (rr.path == l) = false := beq_eq_false_iff_ne.2 hp
            rw [hra]
            simp only [hp', Bool.false_and, if_neg Bool.false_ne_true]
            rw [show (rbStep s rr).ranges = dictAssign s.ranges rr.path
                (Nat.min (match dictGet s.ranges rr.path with
                  | none => br | some p => p).1 br.1,
                 Nat.max (match dictGet s.ranges rr.path with
                  | none => br | some p => p).2 br.2) by
              simp [rbStep, hbr]]
            rw [dictGet_dictAssign_ne _ _ _ _ (Ne.symm hp), rangesAt]

theorem foldl_rbStep_groups_nodup (rrs : List ReadReq) (s : RBState)
    (h : (dictKeys s.groups).Nodup) :
    (dictKeys (rrs.foldl rbStep s).groups).Nodup := by
  induction rrs generalizing s with
  | nil => exact h
  | cons rr t ih =>
      rw [List.foldl_cons]
      apply ih
      cases hbr : rr.byte_range with
      | none => simpa [rbStep, hbr] using h
      | some br =>
          rw [show (rbStep s rr).groups = dictAppendVal s.groups rr.path rr by
            simp [rbStep, hbr]]
          exact dictKeys_nodup_dictAppendVal _ _ _ h

theorem combineG_some (acc : List ReadReq) (new : List ReadReq) :
    combineG (some acc) new = some (acc ++ new) := by
  induction new generalizing acc with
  | nil => simp [combineG]
  | cons r t ih =>
      show combineG (some (acc ++ [r])) t = _
      rw [ih]
      simp

theorem combineG_none (new : List ReadReq) (h : new ≠ []) :
    combineG none new = some new := by
  cases new with
  | nil => exact absurd rfl h
  | cons r t =>
      show combineG (some ([] ++ [r])) t = _
      rw [combineG_some]
      simp

theorem combineR_some_props (brs : List (Nat × Nat)) (p : Nat × Nat) :
    ∃ c, combineR (some p) brs = some c ∧
      c.1 ∈ p.1 :: brs.map Prod.fst ∧ (∀ x ∈ p.1 :: brs.map Prod.fst, c.1 ≤ x) ∧
      c.2 ∈ p.2 :: brs.map Prod.snd ∧ (∀ y ∈ p.2 :: brs.map Prod.snd, y ≤ c.2) := by
  induction brs generalizing p with
  | nil => exact ⟨p, rfl, by simp, by simp, by simp, by simp⟩
  | cons br t ih =>
      obtain ⟨c, hc, h1, h2, h3, h4⟩ := ih (Nat.min p.1 br.1, Nat.max p.2 br.2)
      have hm1 : Nat.min p.1 br.1 = p.1 ∨ Nat.min p.1 br.1 = br.1 := by
        rcases Nat.le_total p.1 br.1 with h | h
        · exact Or.inl (Nat.min_eq_left h)
        · exact Or.inr (Nat.min_eq_right h)
      have hm2 : Nat.max p.2 br.2 = p.2 ∨ Nat.max p.2 br.2 = br.2 := by
        rcases Nat.le_total p.2 br.2 with h | h
        · exact Or.inr (Nat.max_eq_right h)
        · exact Or.inl (Nat.max_eq_left h)
      have hle1 : Nat.min p.1 br.1 ≤ p.1 := Nat.min_le_left _ _
      have hle2 : Nat.min p.1 br.1 ≤ br.1 := Nat.min_le_right _ _
      have hge1 : p.2 ≤ Nat.max p.2 br.2 := Nat.le_max_left _ _
      have hge2 : br.2 ≤ Nat.max p.2 br.2 := Nat.le_max_right _ _
      have hcle : c.1 ≤ Nat.min p.1 br.1 := h2 _ (by simp)
      have hcge : Nat.max p.2 br.2 ≤ c.2 := h4 _ (by simp)
      refine ⟨c, hc, ?_, ?_, ?_, ?_⟩
      · rcases List.mem_cons.1 h1 with h1' | h1'
        · rcases hm1 with hm | hm <;> rw [h1', hm] <;> simp
        · simp only [List.map_cons, List.mem_cons]
          tauto
      · intro x hx
        simp only [List.map_cons, List.mem_cons] at hx
        rcases hx with hx | hx | hx
        · omega
        · omega
        · exact h2 x (by simp [hx])
      · rcases List.mem_cons.1 h3 with h3' | h3'
        · rcases hm2 with hm | hm <;> rw [h3', hm] <;> simp
        · simp only [List.map_cons, List.mem_cons]
          tauto
      · intro y hy
        simp only [List.map_cons, List.mem_cons] at hy
        rcases hy with hy | hy | hy
        · omega
        · omega
        · exact h4 y (by simp [hy])

theorem combineR_none_props (brs : List (Nat × Nat)) (h : brs ≠ []) :
    ∃ c, combineR none brs = some c ∧
      c.1 ∈ brs.map Prod.fst ∧ (∀ x ∈ brs.map Prod.fst, c.1 ≤ x) ∧
      c.2 ∈ brs.map Prod.snd ∧ (∀ y ∈ brs.map Prod.snd, y ≤ c.2) := by
  cases brs with
  | nil => exact absurd rfl h
  | cons br t =>
      have hstep : combineR none (br :: t) =
          combineR (some (Nat.min br.1 br.1, Nat.max br.2 br.2)) t := rfl
      have hmm1 : Nat.min br.1 br.1 = br.1 := Nat.min_self _
      have hmm2 : Nat.max br.2 br.2 = br.2 := Nat.max_self _
      rw [hmm1, hmm2] at hstep
      obtain ⟨c, hc, h1, h2, h3, h4⟩ := combineR_some_props t (br.1, br.2)
      refine ⟨c, by rw [hstep]; exact hc, ?_, ?_, ?_, ?_⟩
      · simpa using h1
      · intro x hx
        apply h2
        simpa using hx
      · simpa using h3
      · intro y hy
        apply h4
        simpa using hy

/-! The consumer dict built by `mergeGroup`. -/

def adjPairs (low : Nat) (grp : List ReadReq) : List ((Nat × Nat) × BufferConsumer) :=
  grp.filterMap fun rr =>
    rr.byte_range.map fun br => ((br.1 - low, br.2 - low), rr.buffer_consumer)

theorem mergeFold_eq_dictAssignFold (grp : List ReadReq)
    (m : List ((Nat × Nat) × BufferConsumer)) (low : Nat) :
    grp.foldl
      (fun m rr =>
        match rr.byte_range with
        | none => m
        | some br => dictAssign m (br.1 - low, br.2 - low) rr.buffer_consumer)
      m = dictAssignFold m (adjPairs low grp) := by
  induction grp generalizing m with
  | nil => simp [adjPairs]
  | cons rr t ih =>
      cases hbr : rr.byte_range with
      | none => simp [adjPairs, List.filterMap_cons, hbr, ih]
      | some br => simp [adjPairs, List.filterMap_cons, hbr, ih, dictAssignFold_cons]

theorem adjPairs_keys (low : Nat) (grp : List ReadReq) :
    (adjPairs low grp).map Prod.fst =
      (grp.filterMap fun rr => rr.byte_range).map
        (fun br => (br.1 - low, br.2 - low)) := by
  induction grp with
  | nil => simp [adjPairs]
  | cons rr t ih =>
      cases hbr : rr.byte_range with
      | none => simpa [adjPairs, List.filterMap_cons, hbr] using ih
      | some br => simpa [adjPairs, List.filterMap_cons, hbr] using ih

theorem adjPairs_mem (low : Nat) (grp : List ReadReq) (rr : ReadReq) (br : Nat × Nat)
    (h : rr ∈ grp) (hbr : rr.byte_range = some br) :
    ((br.1 - low, br.2 - low), rr.buffer_consumer) ∈ adjPairs low grp :=
  List.mem_filterMap.2 ⟨rr, h, by simp [hbr]⟩

/-! Exactly one merged request per location. -/

theorem filter_map_mergeGroup_not_mem (rg : List (String × (Nat × Nat)))
    (gs : List (String × List ReadReq)) (l : String) (h : l ∉ dictKeys gs) :
    (gs.map fun p => mergeGroup rg p.1 p.2).filter
      (fun r => r.path == l && r.byte_range.isSome) = [] := by
  induction gs with
  | nil => rfl
  | cons g t ih =>
      simp only [dictKeys, List.map_cons, List.mem_cons] at h
      push_neg at h
      have hpath : (mergeGroup rg g.1 g.2).path = g.1 := rfl
      have hne : ((mergeGroup rg g.1 g.2).path == l) = false := by
        rw [hpath]
        exact beq_eq_false_iff_ne.2 (Ne.symm h.1)
      rw [List.map_cons, List.filter_cons, if_neg (by simp [hne]), ih h.2]

theorem filter_map_mergeGroup_mem (rg : List (String × (Nat × Nat)))
    (gs : List (String × List ReadReq)) (l : String) (grp : List ReadReq)
    (hnd : (dictKeys gs).Nodup) (hm : (l, grp) ∈ gs) :
    (gs.map fun p => mergeGroup rg p.1 p.2).filter
      (fun r => r.path == l && r.byte_range.isSome) = [mergeGroup rg l grp] := by
  induction gs with
  | nil => simp at hm
  | cons g t ih =>
      simp only [dictKeys, List.map_cons, List.nodup_cons] at hnd
      rcases List.mem_cons.1 hm with h1 | h1
      · cases h1.symm
        have hpath : (mergeGroup rg l grp).path = l := rfl
        have hsome : (mergeGroup rg l grp).byte_range.isSome = true := rfl
        have hcond : ((mergeGroup rg l grp).path == l &&
            (mergeGroup rg l grp).byte_range.isSome) = true := by
          rw [hpath, hsome]
          simp
        show List.filter (fun r => r.path == l && r.byte_range.isSome)
            (mergeGroup rg l grp :: List.map (fun p => mergeGroup rg p.1 p.2) t) =
          [mergeGroup rg l grp]
        rw [List.filter_cons, if_pos hcond, filter_map_mergeGroup_not_mem rg t l hnd.1]
      · have hlt : l ∈ dictKeys t := List.mem_map.2 ⟨(l, grp), h1, rfl⟩
        have hne : g.1 ≠ l := fun he => hnd.1 (he ▸ hlt)
        have hpath : (mergeGroup rg g.1 g.2).path = g.1 := rfl
        have hcond : ((mergeGroup rg g.1 g.2).path == l) = false := by
          rw [hpath]
          exact beq_eq_false_iff_ne.2 hne
        rw [List.map_cons, List.filter_cons, if_neg (by simp [hcond]), ih hnd.2 h1]

theorem filter_passthrough_empty (rrs : List ReadReq) (l : String) :
    (rrs.filter fun rr => rr.byte_range.isNone).filter
      (fun r => r.path == l && r.byte_range.isSome) = [] := by
  rw [List.filter_eq_nil_iff]
  intro r hr
  have := List.of_mem_filter hr
  simp only [Option.isNone_iff_eq_none] at this
  simp [this]

theorem mergeGroup_eq (rg : List (String × (Nat × Nat))) (l : String)
    (grp : List ReadReq) (cov : Nat × Nat) (hr : dictGet rg l = some cov) :
    mergeGroup rg l grp =
      { path := l,
        buffer_consumer := .batched (dictAssignFold [] (adjPairs cov.1 grp))
          (((grp.filterMap fun rr => rr.byte_range).getLastD (0, 0)).2 -
            ((grp.filterMap fun rr => rr.byte_range).getLastD (0, 0)).1),
        byte_range := some cov } := by
  unfold mergeGroup
  rw [hr]
  show ReadReq.mk l
      (BufferConsumer.batched
        (grp.foldl
          (fun m rr =>
            match rr.byte_range with
            | none => m
            | some br => dictAssign m (br.1 - cov.1, br.2 - cov.1) rr.buffer_consumer)
          [])
        (((grp.filterMap fun rr => rr.byte_range).getLastD (0, 0)).2 -
          ((grp.filterMap fun rr => rr.byte_range).getLastD (0, 0)).1))
      (some ((some cov).getD (0, 0))) = _
  rw [mergeFold_eq_dictAssignFold]
  rfl

/-- C2 counterexample: two ranged requests for `"f"` with the identical
byte range `[0,100)` and distinct consumers.  The claim requires each
original request's consumer to be wired into the merged consumer, but the
merged request's consumer dict holds only the second consumer — the first
request's consumer is absent (its translated range maps to `base 2`, not
`base 1`). -/
theorem identical_ranges_lose_first_consumer :
    batch_read_requests
        [⟨"f", .base 1 0, some (0, 100)⟩, ⟨"f", .base 2 0, some (0, 100)⟩] =
      [⟨"f", .batched [((0, 100), .base 2 0)] 100, some (0, 100)⟩] ∧
    dictGet [((0, 100), BufferConsumer.base 2 0)] (0 - 0, 100 - 0) =
      some (.base 2 0) ∧
    BufferConsumer.base 2 0 ≠ BufferConsumer.base 1 0 := by
  refine ⟨by rfl, by rfl, by simp⟩

/-- C2 (amended): for every location `l` with at least one ranged read
request, provided the byte ranges requested for `l` are well-formed
(`lower ≤ upper`) and pairwise distinct, `batch_read_requests` emits
exactly one merged request for `l`; its byte range is the covering range
(`low` = minimum of the lower bounds, `high` = maximum of the upper
bounds), and every original request's consumer is wired, inside the merged
aggregating consumer, to its byte range translated by subtracting `low`.
(When two requests for `l` carry identical ranges the dict overwrite keeps
only the later consumer, so distinctness is required.) -/
theorem merged_read_covering_and_wiring (rrs : List ReadReq) (l : String)
    (hne : rangedReqsAt l rrs ≠ [])
    (hwfr : ∀ br ∈ rangesAt l rrs, br.1 ≤ br.2)
    (hnd : (rangesAt l rrs).Nodup) :
    ∃ mr m sz low high,
      (batch_read_requests rrs).filter
        (fun r => r.path == l && r.byte_range.isSome) = [mr] ∧
      mr.path = l ∧
      mr.byte_range = some (low, high) ∧
      low ∈ (rangesAt l rrs).map Prod.fst ∧
      (∀ x ∈ (rangesAt l rrs).map Prod.fst, low ≤ x) ∧
      high ∈ (rangesAt l rrs).map Prod.snd ∧
      (∀ y ∈ (rangesAt l rrs).map Prod.snd, y ≤ high) ∧
      mr.buffer_consumer = .batched m sz ∧
      (∀ rr ∈ rrs, rr.path = l → ∀ a b, rr.byte_range = some (a, b) →
        dictGet m (a - low, b - low) = some rr.buffer_consumer) := by
  have hg : dictGet (rrs.foldl rbStep rbInit).groups l = some (rangedReqsAt l rrs) := by
    rw [foldl_rbStep_groups]
    exact combineG_none _ hne
  have hmem : (l, rangedReqsAt l rrs) ∈ (rrs.foldl rbStep rbInit).groups :=
    dictGet_mem _ _ _ hg
  have hndk : (dictKeys (rrs.foldl rbStep rbInit).groups).Nodup :=
    foldl_rbStep_groups_nodup rrs rbInit (by simp [rbInit, dictKeys])
  have hrne : rangesAt l rrs ≠ [] := by
    obtain ⟨rr, hrr⟩ := List.exists_mem_of_ne_nil _ hne
    have hcond := List.of_mem_filter hrr
    have hsome : rr.byte_range.isSome = true := by
      simp only [Bool.and_eq_true] at hcond
      exact hcond.2
    obtain ⟨br, hbr⟩ := Option.isSome_iff_exists.1 hsome
    intro hcontra
    have : br ∈ rangesAt l rrs := List.mem_filterMap.2 ⟨rr, hrr, hbr⟩
    rw [hcontra] at this
    simp at this
  obtain ⟨cov, hcov, hlowmem, hlowle, hhighmem, hhighle⟩ :=
    combineR_none_props (rangesAt l rrs) hrne
  have hr : dictGet (rrs.foldl rbStep rbInit).ranges l = some cov := by
    rw [foldl_rbStep_ranges]
    exact hcov
  have hout : batch_read_requests rrs =
      (rrs.foldl rbStep rbInit).batched ++
        (rrs.foldl rbStep rbInit).groups.map
          (fun p => mergeGroup (rrs.foldl rbStep rbInit).ranges p.1 p.2) := rfl
  have hbf : ((rrs.foldl rbStep rbInit).batched).filter
      (fun r => r.path == l && r.byte_range.isSome) = [] := by
    rw [foldl_rbStep_batched]
    show (([] : List ReadReq) ++ _).filter _ = []
    rw [List.nil_append]
    exact filter_passthrough_empty rrs l
  have hmg := mergeGroup_eq (rrs.foldl rbStep rbInit).ranges l (rangedReqsAt l rrs) cov hr
  have hkeysnd : ((adjPairs cov.1 (rangedReqsAt l rrs)).map Prod.fst).Nodup := by
    rw [adjPairs_keys]
    show ((rangesAt l rrs).map fun br => (br.1 - cov.1, br.2 - cov.1)).Nodup
    apply List.Nodup.map_on ?_ hnd
    intro x hx y hy hxy
    have hx1 : cov.1 ≤ x.1 := hlowle _ (List.mem_map.2 ⟨x, hx, rfl⟩)
    have hy1 : cov.1 ≤ y.1 := hlowle _ (List.mem_map.2 ⟨y, hy, rfl⟩)
    have hx2 : x.1 ≤ x.2 := hwfr x hx
    have hy2 : y.1 ≤ y.2 := hwfr y hy
    have h1 : x.1 - cov.1 = y.1 - cov.1 := congrArg Prod.fst hxy
    have h2 : x.2 - cov.1 = y.2 - cov.1 := congrArg Prod.snd hxy
    have : x.1 = y.1 := by omega
    have : x.2 = y.2 := by omega
    exact Prod.ext (by omega) (by omega)
  refine ⟨mergeGroup (rrs.foldl rbStep rbInit).ranges l (rangedReqsAt l rrs),
    dictAssignFold [] (adjPairs cov.1 (rangedReqsAt l rrs)),
    (((rangedReqsAt l rrs).filterMap fun rr => rr.byte_range).getLastD (0, 0)).2 -
      (((rangedReqsAt l rrs).filterMap fun rr => rr.byte_range).getLastD (0, 0)).1,
    cov.1, cov.2,
    ?_, rfl, ?_, hlowmem, hlowle, hhighmem, hhighle, ?_, ?_⟩
  · rw [hout, List.filter_append, hbf, List.nil_append]
    exact filter_map_mergeGroup_mem _ _ _ _ hndk hmem
  · rw [hmg]
  · rw [hmg]
  · intro rr hrr hpath a b hbr
    have hrmem : rr ∈ rangedReqsAt l rrs := by
      apply List.mem_filter.2
      refine ⟨hrr, ?_⟩
      simp [hpath, hbr]
    have hpair : (((a, b).1 - cov.1, (a, b).2 - cov.1), rr.buffer_consumer) ∈
        adjPairs cov.1 (rangedReqsAt l rrs) :=
      adjPairs_mem cov.1 _ rr (a, b) hrmem hbr
    exact dictGet_dictAssignFold_of_mem [] _ hkeysnd _ hpair

/-- The spec's read-merge example input: requests for `"f"` at `[0,100)`
and `[100,200)`. -/
def rrsW : List ReadReq :=
  [⟨"f", .base 1 0, some (0, 100)⟩, ⟨"f", .base 2 0, some (100, 200)⟩]

theorem rrsW_ranged : rangedReqsAt "f" rrsW = rrsW := rfl

/-- C2 witness: the spec's example — requests for `"f"` at `[0,100)` and
`[100,200)` — instantiating the amended claim. -/
theorem merged_read_covering_and_wiring_witness :
    ∃ mr m sz low high,
      (batch_read_requests rrsW).filter
        (fun r => r.path == "f" && r.byte_range.isSome) = [mr] ∧
      mr.path = "f" ∧
      mr.byte_range = some (low, high) ∧
      low ∈ (rangesAt "f" rrsW).map Prod.fst ∧
      (∀ x ∈ (rangesAt "f" rrsW).map Prod.fst, low ≤ x) ∧
      high ∈ (rangesAt "f" rrsW).map Prod.snd ∧
      (∀ y ∈ (rangesAt "f" rrsW).map Prod.snd, y ≤ high) ∧
      mr.buffer_consumer = .batched m sz ∧
      (∀ rr ∈ rrsW, rr.path = "f" → ∀ a b, rr.byte_range = some (a, b) →
        dictGet m (a - low, b - low) = some rr.buffer_consumer) :=
  merged_read_covering_and_wiring rrsW "f"
    (by rw [rrsW_ranged]; exact List.cons_ne_nil _ _)
    (by decide) (by decide)

/-! ## Referential integrity of write batching (C6) -/

theorem wbStep_reloc_keys_mono (T : Nat) (g : Nat → String) (st : WBState)
    (wr : WriteReq) (k : String) (h : k ∈ dictKeys st.reloc) :
    k ∈ dictKeys (wbStep T g st wr).reloc := by
  cases hb : wr.buffer_stager with
  | batchedSlab ps => simpa [wbStep, hb] using h
  | other n => simpa [wbStep, hb] using h
  | tensor e =>
      simp only [wbStep, hb]
      by_cases hbat : is_batchable e = false
      · rw [if_pos hbat]
        exact h
      · rw [if_neg hbat]
        by_cases hsz : T ≤ e.sizeBytes
        · rw [if_pos hsz]
          exact h
        · rw [if_neg hsz]
          by_cases hseal : T ≤ st.currSz + e.sizeBytes
          · rw [if_pos hseal]
            exact (mem_dictKeys_dictAssign _ _ _ _).2 (Or.inl h)
          · rw [if_neg hseal]
            exact (mem_dictKeys_dictAssign _ _ _ _).2 (Or.inl h)

theorem foldl_wbStep_reloc_keys_mono (T : Nat) (g : Nat → String)
    (wrs : List WriteReq) (st : WBState) (k : String) (h : k ∈ dictKeys st.reloc) :
    k ∈ dictKeys (wrs.foldl (wbStep T g) st).reloc := by
  induction wrs generalizing st with
  | nil => exact h
  | cons wr t ih => exact ih _ (wbStep_reloc_keys_mono T g st wr k h)

theorem wbStep_reloc_mem_eligible (T : Nat) (g : Nat → String) (st : WBState)
    (wr : WriteReq) (e : TensorEntry) (hb : wr.buffer_stager = .tensor e)
    (hbat : is_batchable e = true) (hsz : e.sizeBytes < T) :
    wr.path ∈ dictKeys (wbStep T g st wr).reloc := by
  simp only [wbStep, hb]
  rw [if_neg (by simp [hbat]), if_neg (Nat.not_le.2 hsz)]
  by_cases hseal : T ≤ st.currSz + e.sizeBytes
  · rw [if_pos hseal]
    exact (mem_dictKeys_dictAssign _ _ _ _).2 (Or.inr rfl)
  · rw [if_neg hseal]
    exact (mem_dictKeys_dictAssign _ _ _ _).2 (Or.inr rfl)

theorem eligible_mem_reloc (T : Nat) (g : Nat → String) (wrs : List WriteReq)
    (st : WBState) (wr : WriteReq) (e : TensorEntry) (hmem : wr ∈ wrs)
    (hb : wr.buffer_stager = .tensor e) (hbat : is_batchable e = true)
    (hsz : e.sizeBytes < T) :
    wr.path ∈ dictKeys (wrs.foldl (wbStep T g) st).reloc := by
  induction wrs generalizing st with
  | nil => simp at hmem
  | cons w t ih =>
      rcases List.mem_cons.1 hmem with h1 | h1
      · subst h1
        exact foldl_wbStep_reloc_keys_mono T g t _ _
          (wbStep_reloc_mem_eligible T g st wr e hb hbat hsz)
      · exact ih (wbStep T g st w) h1

theorem mem_keys_buildLocIndex (es : List Entry) (k : String) :
    k ∈ dictKeys (buildLocIndex es) ↔ k ∈ registeredLocs es := by
  rw [buildLocIndex, mem_dictKeys_dictAssignFold]
  simp [dictKeys, registeredLocs]

theorem foldl_applyRelocStep_error (idx : List (String × (Nat × Option Nat)))
    (reloc : List (String × (String × (Nat × Nat)))) (m : String) :
    reloc.foldl (applyRelocStep idx) (.error m) = .error m := by
  induction reloc with
  | nil => rfl
  | cons r t ih => simpa [applyRelocStep, Except.bind] using ih

theorem foldl_applyRelocStep_missing (idx : List (String × (Nat × Option Nat)))
    (reloc : List (String × (String × (Nat × Nat)))) (es : List Entry) (k : String)
    (hk : k ∈ dictKeys reloc) (hmiss : dictGet idx k = none) :
    ∃ msg, reloc.foldl (applyRelocStep idx) (.ok es) = .error msg := by
  induction reloc generalizing es with
  | nil => simp [dictKeys] at hk
  | cons r t ih =>
      cases hge : dictGet idx r.1 with
      | none =>
          refine ⟨"The tensor entry with the location " ++ r.1 ++
            " is not passed to batch_write.", ?_⟩
          rw [List.foldl_cons,
            show applyRelocStep idx (.ok es) r = .error ("The tensor entry with the location "
              ++ r.1 ++ " is not passed to batch_write.") by
                simp [applyRelocStep, Except.bind, hge]]
          exact foldl_applyRelocStep_error idx t _
      | some p =>
          have hkr : k ≠ r.1 := by
            intro he
            rw [he, hge] at hmiss
            exact absurd hmiss (by simp)
          rw [dictKeys, List.map_cons] at hk
          rcases List.mem_cons.1 hk with h1 | h1
          · exact absurd h1 hkr
          · rw [List.foldl_cons,
              show applyRelocStep idx (.ok es) r = .ok (relocateAt es p r.2.1 r.2.2) by
                simp [applyRelocStep, Except.bind, hge]]
            exact ih (relocateAt es p r.2.1 r.2.2) h1

/-- C6: if an eligible write request (tensor stager, buffer-protocol
serializer, size under the resolved threshold) gets batched but its
original location has no matching simple tensor entry among the supplied
entries — top-level tensor entries and the children of chunked and sharded
entries — then `batch_write_requests` fails with the referential-integrity
`RuntimeError` instead of silently dropping the relocation. -/
theorem missing_entry_fails_batch_write (g : Nat → String) (es : List Entry)
    (wrs : List WriteReq) (t? : Option Nat) (d : Nat) (wr : WriteReq)
    (e : TensorEntry) (hmem : wr ∈ wrs) (hb : wr.buffer_stager = .tensor e)
    (hbat : is_batchable e = true)
    (hsz : e.sizeBytes < resolveThreshold t? d)
    (hmiss : wr.path ∉ registeredLocs es) :
    ∃ msg, batch_write_requests g es wrs t? d = .error msg := by
  have hkey : wr.path ∈ dictKeys (wbFinal g (resolveThreshold t? d) wrs).reloc :=
    eligible_mem_reloc (resolveThreshold t? d) g wrs (wbInit g) wr e hmem hb hbat hsz
  have hnone : dictGet (buildLocIndex es) wr.path = none :=
    (dictGet_eq_none_iff _ _).2 (fun hc => hmiss ((mem_keys_buildLocIndex es wr.path).1 hc))
  obtain ⟨msg, hmsg⟩ := foldl_applyRelocStep_missing (buildLocIndex es)
    (wbFinal g (resolveThreshold t? d) wrs).reloc es wr.path hkey hnone
  refine ⟨msg, ?_⟩
  show (applyRelocs es (wbFinal g (resolveThreshold t? d) wrs).reloc).map _ = .error msg
  rw [applyRelocs, hmsg]
  rfl

/-- C6 witness: a batchable request for `"x"` with no entry supplied. -/
theorem missing_entry_fails_batch_write_witness :
    ∃ msg, batch_write_requests gB []
      [⟨"x", .tensor ⟨"x", .buffer_protocol, none, 10⟩⟩] (some 100) 0 = .error msg :=
  missing_entry_fails_batch_write gB [] _ (some 100) 0
    ⟨"x", .tensor ⟨"x", .buffer_protocol, none, 10⟩⟩
    ⟨"x", .buffer_protocol, none, 10⟩ (by simp) rfl (by decide) (by decide)
    (by simp [registeredLocs, registrations, regsAux])

/-! ## Entry relocation semantics (C4)

`entryAt? es (i, none)` is the top-level tensor entry `entries[i]`;
`entryAt? es (i, some j)` is child `j` of the chunked/sharded entry
`entries[i]` — the objects registered in `location_to_entry`.
`entrySkel` is an entry's constructor and child count, which relocation
never changes (it only rewrites `location`/`byte_range` of one registered
tensor entry). -/

def entrySlot : Entry → Option Nat → Option TensorEntry
  | .tensor t, none => some t
  | .chunked cs, some j => cs[j]?
  | .sharded ss, some j => ss[j]?
  | _, _ => none

def entryAt? (es : List Entry) (p : Nat × Option Nat) : Option TensorEntry :=
  (es[p.1]?).bind fun e => entrySlot e p.2

def entrySkel : Entry → Nat × Nat
  | .tensor _ => (1, 0)
  | .chunked cs => (2, cs.length)
  | .sharded ss => (3, ss.length)
  | .other n => (4, n)

/-- What one relocation record does to a registered tensor entry. -/
def relocTensor (reloc : List (String × (String × (Nat × Nat)))) (t : TensorEntry) :
    TensorEntry :=
  match dictGet reloc t.location with
  | some v => setTensorFields t v.1 v.2
  | none => t

/-- What the relocation loop does to a whole manifest entry. -/
def relocEntry (reloc : List (String × (String × (Nat × Nat)))) : Entry → Entry
  | .tensor t => .tensor (relocTensor reloc t)
  | .chunked cs => .chunked (cs.map (relocTensor reloc))
  | .sharded ss => .sharded (ss.map (relocTensor reloc))
  | .other n => .other n

theorem listModify_length {α : Type u} (l : List α) (i : Nat) (f : α → α) :
    (listModify l i f).length = l.length := by
  induction l generalizing i with
  | nil => rfl
  | cons a t ih =>
      cases i with
      | zero => rfl
      | succ n => simpa [listModify] using ih n

theorem listModify_getElem?_self {α : Type u} (l : List α) (i : Nat) (f : α → α) :
    (listModify l i f)[i]? = (l[i]?).map f := by
  induction l generalizing i with
  | nil => simp [listModify]
  | cons a t ih =>
      cases i with
      | zero => simp [listModify]
      | succ n => simpa [listModify] using ih n

theorem listModify_getElem?_ne {α : Type u} (l : List α) (i j : Nat) (f : α → α)
    (h : j ≠ i) : (listModify l i f)[j]? = l[j]? := by
  induction l generalizing i j with
  | nil => simp [listModify]
  | cons a t ih =>
      cases i with
      | zero =>
          cases j with
          | zero => exact absurd rfl h
          | succ m => simp [listModify]
      | succ n =>
          cases j with
          | zero => simp [listModify]
          | succ m =>
              simp only [listModify, List.getElem?_cons_succ]
              exact ih n m (fun he => h (by rw [he]))

theorem relocateAt_length (es : List Entry) (p : Nat × Option Nat) (nl : String)
    (br : Nat × Nat) : (relocateAt es p nl br).length = es.length := by
  obtain ⟨i, oj⟩ := p
  cases oj with
  | none => exact listModify_length es i _
  | some j => exact listModify_length es i _

theorem entryAt?_relocateAt_self (es : List Entry) (p : Nat × Option Nat)
    (nl : String) (br : Nat × Nat) :
    entryAt? (relocateAt es p nl br) p =
      (entryAt? es p).map (fun t => setTensorFields t nl br) := by
  obtain ⟨i, oj⟩ := p
  cases oj with
  | none =>
      show ((listModify es i _)[i]?).bind _ = _
      rw [listModify_getElem?_self]
      cases hei : es[i]? with
      | none => simp [entryAt?, hei]
      | some e =>
          cases e <;> simp [entryAt?, hei, entrySlot]
  | some j =>
      show ((listModify es i _)[i]?).bind _ = _
      rw [listModify_getElem?_self]
      cases hei : es[i]? with
      | none => simp [entryAt?, hei]
      | some e =>
          cases e with
          | tensor t => simp [entryAt?, hei, entrySlot]
          | chunked cs =>
              simp only [Option.map_some, Option.some_bind, entryAt?, hei, entrySlot]
              exact listModify_getElem?_self cs j _
          | sharded ss =>
              simp only [Option.map_some, Option.some_bind, entryAt?, hei, entrySlot]
              exact listModify_getElem?_self ss j _
          | other n => simp [entryAt?, hei, entrySlot]

theorem entryAt?_relocateAt_ne (es : List Entry) (p q : Nat × Option Nat)
    (nl : String) (br : Nat × Nat) (h : q ≠ p) :
    entryAt? (relocateAt es p nl br) q = entryAt? es q := by
  obtain ⟨i, oj⟩ := p
  obtain ⟨i', oj'⟩ := q
  by_cases hi : i' = i
  · subst hi
    have hoj : oj' ≠ oj := fun he => h (by rw [he])
    cases oj with
    | none =>
        show ((listModify es i' _)[i']?).bind _ = _
        rw [listModify_getElem?_self]
        cases hei : es[i']? with
        | none => simp [entryAt?, hei]
        | some e =>
            cases oj' with
            | none => exact absurd rfl hoj
            | some j' => cases e <;> simp [entryAt?, hei, entrySlot]
    | some j =>
        show ((listModify es i' _)[i']?).bind _ = _
        rw [listModify_getElem?_self]
        cases hei : es[i']? with
        | none => simp [entryAt?, hei]
        | some e =>
            cases oj' with
            | none => cases e <;> simp [entryAt?, hei, entrySlot]
            | some j' =>
                have hj : j' ≠ j := fun he => hoj (by rw [he])
                cases e with
                | tensor t => simp [entryAt?, hei, entrySlot]
                | chunked cs =>
                    simp only [Option.map_some, Option.some_bind, entryAt?, hei, entrySlot]
                    exact listModify_getElem?_ne cs j j' _ hj
                | sharded ss =>
                    simp only [Option.map_some, Option.some_bind, entryAt?, hei, entrySlot]
                    exact listModify_getElem?_ne ss j j' _ hj
                | other n => simp [entryAt?, hei, entrySlot]
  · cases oj with
    | none =>
        show ((listModify es i _)[i']?).bind _ = _
        rw [listModify_getElem?_ne es i i' _ hi]
        rfl
    | some j =>
        show ((listModify es i _)[i']?).bind _ = _
        rw [listModify_getElem?_ne es i i' _ hi]
        rfl

theorem relocateAt_skel (es : List Entry) (p : Nat × Option Nat) (nl : String)
    (br : Nat × Nat) (i : Nat) :
    ((relocateAt es p nl br)[i]?).map entrySkel = (es[i]?).map entrySkel := by
  obtain ⟨i0, oj⟩ := p
  by_cases hi : i = i0
  · subst hi
    cases oj with
    | none =>
        show ((listModify es i _)[i]?).map entrySkel = _
        rw [listModify_getElem?_self]
        cases hei : es[i]? with
        | none => simp
        | some e => cases e <;> simp [entrySkel]
    | some j =>
        show ((listModify es i _)[i]?).map entrySkel = _
        rw [listModify_getElem?_self]
        cases hei : es[i]? with
        | none => simp
        | some e =>
            cases e <;> simp [entrySkel, listModify_length]
  · cases oj with
    | none =>
        show ((listModify es i0 _)[i]?).map entrySkel = _
        rw [listModify_getElem?_ne es i0 i _ hi]
    | some j =>
        show ((listModify es i0 _)[i]?).map entrySkel = _
        rw [listModify_getElem?_ne es i0 i _ hi]

theorem foldl_applyRelocStep_ok_skel (idx : List (String × (Nat × Option Nat)))
    (reloc : List (String × (String × (Nat × Nat)))) (es out : List Entry)
    (hok : reloc.foldl (applyRelocStep idx) (.ok es) = .ok out) :
    out.length = es.length ∧
      ∀ i : Nat, (out[i]?).map entrySkel = (es[i]?).map entrySkel := by
  induction reloc generalizing es with
  | nil =>
      simp only [List.foldl_nil, Except.ok.injEq] at hok
      subst hok
      exact ⟨rfl, fun i => rfl⟩
  | cons r t ih =>
      cases hge : dictGet idx r.1 with
      | none =>
          rw [List.foldl_cons,
            show applyRelocStep idx (.ok es) r =
                .error ("The tensor entry with the location " ++ r.1 ++
                  " is not passed to batch_write.") by
              simp [applyRelocStep, Except.bind, hge],
            foldl_applyRelocStep_error] at hok
          exact absurd hok (by simp)
      | some p =>
          rw [List.foldl_cons,
            show applyRelocStep idx (.ok es) r = .ok (relocateAt es p r.2.1 r.2.2) by
              simp [applyRelocStep, Except.bind, hge]] at hok
          obtain ⟨hl, hs⟩ := ih _ hok
          refine ⟨hl.trans (relocateAt_length es p r.2.1 r.2.2), fun i : Nat => ?_⟩
          rw [hs i, relocateAt_skel]

theorem foldl_applyRelocStep_untouched (idx : List (String × (Nat × Option Nat)))
    (reloc : List (String × (String × (Nat × Nat)))) (es out : List Entry)
    (q : Nat × Option Nat)
    (hok : reloc.foldl (applyRelocStep idx) (.ok es) = .ok out)
    (hun : ∀ r ∈ reloc, dictGet idx r.1 ≠ some q) :
    entryAt? out q = entryAt? es q := by
  induction reloc generalizing es with
  | nil =>
      simp only [List.foldl_nil, Except.ok.injEq] at hok
      subst hok
      rfl
  | cons r t ih =>
      cases hge : dictGet idx r.1 with
      | none =>
          rw [List.foldl_cons,
            show applyRelocStep idx (.ok es) r =
                .error ("The tensor entry with the location " ++ r.1 ++
                  " is not passed to batch_write.") by
              simp [applyRelocStep, Except.bind, hge],
            foldl_applyRelocStep_error] at hok
          exact absurd hok (by simp)
      | some p =>
          rw [List.foldl_cons,
            show applyRelocStep idx (.ok es) r = .ok (relocateAt es p r.2.1 r.2.2) by
              simp [applyRelocStep, Except.bind, hge]] at hok
          have hpq : q ≠ p := by
            intro he
            exact hun r (by simp) (he ▸ hge)
          rw [ih _ hok (fun r' hr' => hun r' (List.mem_cons_of_mem _ hr'))]
          exact entryAt?_relocateAt_ne es p q r.2.1 r.2.2 hpq

theorem foldl_applyRelocStep_touched (idx : List (String × (Nat × Option Nat)))
    (reloc : List (String × (String × (Nat × Nat)))) (es out : List Entry)
    (q : Nat × Option Nat) (r : String × (String × (Nat × Nat)))
    (hok : reloc.foldl (applyRelocStep idx) (.ok es) = .ok out)
    (hmem : r ∈ reloc) (htgt : dictGet idx r.1 = some q)
    (hnd : (dictKeys reloc).Nodup)
    (hinj : ∀ k k', dictGet idx k = some q → dictGet idx k' = some q → k = k') :
    entryAt? out q = (entryAt? es q).map (fun t => setTensorFields t r.2.1 r.2.2) := by
  induction reloc generalizing es with
  | nil => simp at hmem
  | cons r₀ t ih =>
      simp only [dictKeys, List.map_cons, List.nodup_cons] at hnd
      cases hge : dictGet idx r₀.1 with
      | none =>
          rw [List.foldl_cons,
            show applyRelocStep idx (.ok es) r₀ =
                .error ("The tensor entry with the location " ++ r₀.1 ++
                  " is not passed to batch_write.") by
              simp [applyRelocStep, Except.bind, hge],
            foldl_applyRelocStep_error] at hok
          exact absurd hok (by simp)
      | some p =>
          rw [List.foldl_cons,
            show applyRelocStep idx (.ok es) r₀ = .ok (relocateAt es p r₀.2.1 r₀.2.2) by
              simp [applyRelocStep, Except.bind, hge]] at hok
          rcases List.mem_cons.1 hmem with h1 | h1
          · subst h1
            have hpq : p = q := by
              rw [htgt] at hge
              exact (Option.some.inj hge).symm
            subst hpq
            have hun : ∀ r' ∈ t, dictGet idx r'.1 ≠ some p := by
              intro r' hr' hc
              have : r'.1 = r.1 := hinj r'.1 r.1 hc htgt
              exact hnd.1 (this ▸ List.mem_map.2 ⟨r', hr', rfl⟩)
            rw [foldl_applyRelocStep_untouched idx t _ out p hok hun]
            exact entryAt?_relocateAt_self es p r.2.1 r.2.2
          · have hne : dictGet idx r₀.1 ≠ some q := by
              intro hc
              have : r₀.1 = r.1 := hinj r₀.1 r.1 hc htgt
              exact hnd.1 (this ▸ List.mem_map.2 ⟨r, h1, rfl⟩)
            have hpq : q ≠ p := by
              intro he
              exact hne (he ▸ hge)
            rw [ih _ hok h1 hnd.2,
              entryAt?_relocateAt_ne es p q r₀.2.1 r₀.2.2 hpq]

theorem childRegs_mem_iff (cs : List TensorEntry) (i j0 : Nat) (l : String)
    (i' : Nat) (oj : Option Nat) :
    (l, (i', oj)) ∈ childRegs i j0 cs ↔
      i' = i ∧ ∃ j t, oj = some (j0 + j) ∧ cs[j]? = some t ∧ t.location = l := by
  induction cs generalizing j0 with
  | nil => simp [childRegs]
  | cons c rest ih =>
      simp only [childRegs, List.mem_cons, ih (j0 + 1)]
      constructor
      · rintro (h | ⟨hi, j, t, hoj, hget, hloc⟩)
        · have h1 : l = c.location ∧ i' = i ∧ oj = some j0 := by
            refine ⟨congrArg Prod.fst h, ?_, ?_⟩
            · exact congrArg (fun x => x.2.1) h
            · exact congrArg (fun x => x.2.2) h
          exact ⟨h1.2.1, 0, c, by simpa using h1.2.2, by simp, h1.1.symm⟩
        · refine ⟨hi, j + 1, t, ?_, by simpa using hget, hloc⟩
          rw [hoj]
          congr 1
          omega
      · rintro ⟨hi, j, t, hoj, hget, hloc⟩
        cases j with
        | zero =>
            left
            simp only [List.getElem?_cons_zero, Option.some.injEq] at hget
            subst hget
            subst hi
            rw [hoj, hloc]
            simp
        | succ j' =>
            right
            refine ⟨hi, j', t, ?_, by simpa using hget, hloc⟩
            rw [hoj]
            congr 1
            omega

theorem entryRegs_mem_iff (e : Entry) (i : Nat) (l : String) (i' : Nat)
    (oj : Option Nat) :
    (l, (i', oj)) ∈ entryRegs i e ↔
      i' = i ∧ ∃ t, entrySlot e oj = some t ∧ t.location = l := by
  cases e with
  | tensor t =>
      cases oj with
      | none =>
          simp only [entryRegs, List.mem_singleton, entrySlot]
          constructor
          · intro h
            refine ⟨congrArg (fun x => x.2.1) h, t, rfl, (congrArg Prod.fst h).symm⟩
          · rintro ⟨hi, t', ht', hloc⟩
            simp only [Option.some.injEq] at ht'
            subst ht'
            subst hi
            rw [hloc]
      | some j =>
          simp only [entryRegs, List.mem_singleton, entrySlot]
          constructor
          · intro h
            exact absurd (congrArg (fun x => x.2.2) h) (by simp)
          · rintro ⟨-, t', ht', -⟩
            exact absurd ht' (by simp)
  | chunked cs =>
      cases oj with
      | none =>
          simp only [entryRegs, childRegs_mem_iff, entrySlot]
          simp
      | some j =>
          rw [show entryRegs i (.chunked cs) = childRegs i 0 cs from rfl,
            childRegs_mem_iff]
          simp [entrySlot]
  | sharded ss =>
      cases oj with
      | none =>
          simp only [entryRegs, childRegs_mem_iff, entrySlot]
          simp
      | some j =>
          rw [show entryRegs i (.sharded ss) = childRegs i 0 ss from rfl,
            childRegs_mem_iff]
          simp [entrySlot]
  | other n => simp [entryRegs, entrySlot]

theorem regsAux_mem_iff (es : List Entry) (i0 : Nat) (l : String) (i : Nat)
    (oj : Option Nat) :
    (l, (i, oj)) ∈ regsAux i0 es ↔
      i0 ≤ i ∧ ∃ e, es[i - i0]? = some e ∧
        ∃ t, entrySlot e oj = some t ∧ t.location = l := by
  induction es generalizing i0 with
  | nil => simp [regsAux]
  | cons e rest ih =>
      simp only [regsAux, List.mem_append, entryRegs_mem_iff, ih (i0 + 1)]
      constructor
      · rintro (⟨hi, t, ht, hloc⟩ | ⟨hle, e', he', t, ht, hloc⟩)
        · subst hi
          exact ⟨Nat.le_refl _, e, by simp, t, ht, hloc⟩
        · refine ⟨by omega, e', ?_, t, ht, hloc⟩
          rw [show i - i0 = (i - (i0 + 1)) + 1 by omega]
          simpa using he'
      · rintro ⟨hle, e', he', t, ht, hloc⟩
        rcases Nat.eq_or_lt_of_le hle with heq | hlt
        · left
          subst heq
          simp only [Nat.sub_self, List.getElem?_cons_zero, Option.some.injEq] at he'
          subst he'
          exact ⟨rfl, t, ht, hloc⟩
        · right
          refine ⟨hlt, e', ?_, t, ht, hloc⟩
          rw [show i - i0 = (i - (i0 + 1)) + 1 by omega] at he'
          simpa using he'

theorem registrations_mem_iff (es : List Entry) (l : String) (q : Nat × Option Nat) :
    (l, q) ∈ registrations es ↔ ∃ t, entryAt? es q = some t ∧ t.location = l := by
  obtain ⟨i, oj⟩ := q
  rw [registrations, regsAux_mem_iff]
  simp only [Nat.zero_le, true_and, Nat.sub_zero, entryAt?]
  constructor
  · rintro ⟨e, he, t, ht, hloc⟩
    exact ⟨t, by rw [he]; simpa using ht, hloc⟩
  · rintro ⟨t, ht, hloc⟩
    cases he : es[i]? with
    | none => rw [he] at ht; simp at ht
    | some e =>
        rw [he] at ht
        exact ⟨e, rfl, t, by simpa using ht, hloc⟩

theorem wbStep_reloc_keys_nodup (T : Nat) (g : Nat → String) (st : WBState)
    (wr : WriteReq) (h : (dictKeys st.reloc).Nodup) :
    (dictKeys (wbStep T g st wr).reloc).Nodup := by
  cases hb : wr.buffer_stager with
  | batchedSlab ps => simpa [wbStep, hb] using h
  | other n => simpa [wbStep, hb] using h
  | tensor e =>
      simp only [wbStep, hb]
      by_cases hbat : is_batchable e = false
      · rw [if_pos hbat]
        exact h
      · rw [if_neg hbat]
        by_cases hsz : T ≤ e.sizeBytes
        · rw [if_pos hsz]
          exact h
        · rw [if_neg hsz]
          by_cases hseal : T ≤ st.currSz + e.sizeBytes
          · rw [if_pos hseal]
            exact dictKeys_nodup_dictAssign _ _ _ h
          · rw [if_neg hseal]
            exact dictKeys_nodup_dictAssign _ _ _ h

theorem wbFinal_reloc_keys_nodup (g : Nat → String) (T : Nat)
    (wrs : List WriteReq) : (dictKeys (wbFinal g T wrs).reloc).Nodup := by
  rw [wbFinal]
  generalize hst : wbInit g = st0
  have h0 : (dictKeys st0.reloc).Nodup := by
    rw [← hst]
    simp [wbInit, dictKeys]
  clear hst
  induction wrs generalizing st0 with
  | nil => exact h0
  | cons wr t ih => exact ih _ (wbStep_reloc_keys_nodup T g st0 wr h0)

/-- Core of C4: when the registered locations are pairwise distinct and
the relocation dict's keys are distinct (which `dictAssign` guarantees),
a successful relocation pass rewrites exactly the registered tensor
entries whose location is a relocation key, leaving everything else
byte-for-byte unchanged: the result is a `map` of the per-entry
relocation function. -/
theorem applyRelocs_eq_map (es out : List Entry)
    (reloc : List (String × (String × (Nat × Nat))))
    (hnd : (registeredLocs es).Nodup) (hndk : (dictKeys reloc).Nodup)
    (hok : applyRelocs es reloc = .ok out) :
    out = es.map (relocEntry reloc) := by
  have hidx : buildLocIndex es = registrations es := by
    rw [buildLocIndex]
    have hfresh : ∀ k ∈ (registrations es).map Prod.fst,
        k ∉ dictKeys ([] : List (String × (Nat × Option Nat))) := by
      intro k _
      simp [dictKeys]
    simpa using dictAssignFold_fresh [] (registrations es) hnd hfresh
  rw [applyRelocs, hidx] at hok
  have hinj : ∀ (q : Nat × Option Nat) (k k' : String),
      dictGet (registrations es) k = some q →
      dictGet (registrations es) k' = some q → k = k' := by
    intro q k k' h1 h2
    obtain ⟨t1, ht1, hl1⟩ := (registrations_mem_iff es k q).1 (dictGet_mem _ _ _ h1)
    obtain ⟨t2, ht2, hl2⟩ := (registrations_mem_iff es k' q).1 (dictGet_mem _ _ _ h2)
    rw [ht1] at ht2
    have ht12 : t1 = t2 := Option.some.inj ht2
    rw [← hl1, ← hl2, ht12]
  obtain ⟨hlen, hskel⟩ := foldl_applyRelocStep_ok_skel _ _ _ _ hok
  have hslot : ∀ (q : Nat × Option Nat) (t : TensorEntry), entryAt? es q = some t →
      entryAt? out q = some (relocTensor reloc t) := by
    intro q t ht
    cases hrel : dictGet reloc t.location with
    | some v =>
        have hmem := dictGet_mem _ _ _ hrel
        have htgt : dictGet (registrations es) t.location = some q := by
          apply dictGet_of_mem_nodup _ _ _ hnd
          exact (registrations_mem_iff es t.location q).2 ⟨t, ht, rfl⟩
        have hres := foldl_applyRelocStep_touched (registrations es) reloc es out q
          (t.location, v) hok hmem htgt hndk (hinj q)
        rw [ht] at hres
        rw [hres, relocTensor, hrel]
        rfl
    | none =>
        have hun : ∀ r ∈ reloc, dictGet (registrations es) r.1 ≠ some q := by
          intro r hr hc
          obtain ⟨t2, ht2, hl2⟩ :=
            (registrations_mem_iff es r.1 q).1 (dictGet_mem _ _ _ hc)
          rw [ht] at ht2
          have ht12 : t = t2 := Option.some.inj ht2
          have hloc : r.1 = t.location := by rw [ht12, hl2]
          have : t.location ∉ dictKeys reloc := (dictGet_eq_none_iff _ _).1 hrel
          exact this (hloc ▸ List.mem_map.2 ⟨r, hr, rfl⟩)
        have hres := foldl_applyRelocStep_untouched _ reloc es out q hok hun
        rw [hres, ht, relocTensor, hrel]
  apply List.ext_getElem?
  intro i
  rw [List.getElem?_map]
  cases hei : es[i]? with
  | none =>
      have hsk := hskel i
      rw [hei] at hsk
      cases ho : out[i]? with
      | none => rfl
      | some e2 =>
          rw [ho] at hsk
          simp at hsk
  | some e =>
      have hsk := hskel i
      rw [hei] at hsk
      cases ho : out[i]? with
      | none =>
          rw [ho] at hsk
          simp at hsk
      | some e' =>
          rw [ho] at hsk
          have hske : entrySkel e' = entrySkel e := by simpa using hsk
          show some e' = some (relocEntry reloc e)
          congr 1
          cases e with
          | tensor t =>
              have he't : ∃ t', e' = .tensor t' := by
                cases e' <;> simp [entrySkel] at hske <;> exact ⟨_, rfl⟩
              obtain ⟨t', rfl⟩ := he't
              have hat : entryAt? es (i, none) = some t := by
                simp [entryAt?, hei, entrySlot]
              have hthis := hslot (i, none) t hat
              rw [show entryAt? out (i, none) = some t' by
                simp [entryAt?, ho, entrySlot]] at hthis
              rw [relocEntry, Option.some.inj hthis]
          | chunked cs =>
              have he'c : ∃ cs', e' = .chunked cs' ∧ cs'.length = cs.length := by
                cases e' <;> simp [entrySkel] at hske
                exact ⟨_, rfl, hske⟩
              obtain ⟨cs', rfl, hcl⟩ := he'c
              have hcs : cs' = cs.map (relocTensor reloc) := by
                apply List.ext_getElem?
                intro j
                rw [List.getElem?_map]
                cases hcj : cs[j]? with
                | none =>
                    have hj : cs.length ≤ j := by
                      by_contra hc
                      push_neg at hc
                      rw [List.getElem?_eq_getElem hc] at hcj
                      exact absurd hcj (by simp)
                    rw [List.getElem?_eq_none (by omega)]
                    rfl
                | some c =>
                    have hat : entryAt? es (i, some j) = some c := by
                      simp [entryAt?, hei, entrySlot, hcj]
                    have hthis := hslot (i, some j) c hat
                    rw [show entryAt? out (i, some j) = cs'[j]? by
                      simp [entryAt?, ho, entrySlot]] at hthis
                    rw [hthis]
                    rfl
              rw [relocEntry, hcs]
          | sharded ss =>
              have he's : ∃ ss', e' = .sharded ss' ∧ ss'.length = ss.length := by
                cases e' <;> simp [entrySkel] at hske
                exact ⟨_, rfl, hske⟩
              obtain ⟨ss', rfl, hsl⟩ := he's
              have hss : ss' = ss.map (relocTensor reloc) := by
                apply List.ext_getElem?
                intro j
                rw [List.getElem?_map]
                cases hsj : ss[j]? with
                | none =>
                    have hj : ss.length ≤ j := by
                      by_contra hc
                      push_neg at hc
                      rw [List.getElem?_eq_getElem hc] at hsj
                      exact absurd hsj (by simp)
                    rw [List.getElem?_eq_none (by omega)]
                    rfl
                | some c =>
                    have hat : entryAt? es (i, some j) = some c := by
                      simp [entryAt?, hei, entrySlot, hsj]
                    have hthis := hslot (i, some j) c hat
                    rw [show entryAt? out (i, some j) = ss'[j]? by
                      simp [entryAt?, ho, entrySlot]] at hthis
                    rw [hthis]
                    rfl
              rw [relocEntry, hss]
          | other n =>
              have he'o : e' = .other n := by
                cases e' <;> simp [entrySkel] at hske
                rw [hske]
              rw [he'o, relocEntry]

def dupE : TensorEntry := ⟨"a", .buffer_protocol, none, 10⟩

/-- C4 counterexample: two entries share the original location `"a"`, and a
write request for `"a"` is batched.  `"a"` is a relocation key, yet only
the LAST registered entry for `"a"` is rewritten (the dict registration
overwrites): the first returned entry keeps `location = "a"` and
`byte_range = none`, byte-for-byte equal to its input — contradicting the
claim that every returned entry whose original location appeared as a
relocation key is rewritten. -/
theorem shadowed_duplicate_location_not_rewritten :
    batch_write_requests gB [.tensor dupE, .tensor dupE] [⟨"a", .tensor dupE⟩]
        (some 100) 0 =
      .ok ([.tensor dupE,
            .tensor ⟨"batched/0", .buffer_protocol, some (0, 10), 10⟩],
           [⟨"batched/0", .batchedSlab [((0, 10), .tensor dupE)]⟩]) ∧
    dupE = ⟨"a", .buffer_protocol, none, 10⟩ :=
  ⟨rfl, rfl⟩

/-- C4 (amended): provided the registered locations (top-level tensor
entries plus the children of chunked and sharded entries) are pairwise
distinct, the returned entry list is exactly the input list with the
relocation table applied entry-wise: every registered tensor entry whose
original location is a relocation key has its `location` and `byte_range`
rewritten to the slab location and slab-local range, and every other
entry is byte-for-byte equal to the corresponding input entry (the deep
copy is modelled by value semantics, so the caller's originals are never
aliased).  With duplicate locations, only the lattermost-registered entry
for a relocated location is rewritten (see the counterexample). -/
theorem relocation_rewrites_matching_entries (g : Nat → String) (es : List Entry)
    (wrs : List WriteReq) (t? : Option Nat) (d : Nat) (es' : List Entry)
    (reqs' : List WriteReq) (hnd : (registeredLocs es).Nodup)
    (hok : batch_write_requests g es wrs t? d = .ok (es', reqs')) :
    es' = es.map (relocEntry (wbFinal g (resolveThreshold t? d) wrs).reloc) := by
  have hbw : batch_write_requests g es wrs t? d =
      (applyRelocs es ((wbFinal g (resolveThreshold t? d) wrs).reloc)).map
        (fun es2 => (es2, (wbFinal g (resolveThreshold t? d) wrs).batched ++
          slabReqs (wbFinal g (resolveThreshold t? d) wrs))) := rfl
  rw [hbw] at hok
  cases ha : applyRelocs es ((wbFinal g (resolveThreshold t? d) wrs).reloc) with
  | error m =>
      rw [ha] at hok
      exact absurd hok (by simp [Except.map])
  | ok v =>
      rw [ha] at hok
      simp only [Except.map, Except.ok.injEq, Prod.mk.injEq] at hok
      rw [← hok.1]
      exact applyRelocs_eq_map es v _ hnd
        (wbFinal_reloc_keys_nodup g (resolveThreshold t? d) wrs) ha

/-- C4 witness: the four-entry scenario (distinct locations); the returned
entries are exactly the input entries with the relocation table applied. -/
theorem relocation_rewrites_matching_entries_witness :
    [Entry.tensor ⟨"batched/0", .buffer_protocol, some (0, 31457280), 31457280⟩,
     Entry.tensor ⟨"batched/0", .buffer_protocol, some (31457280, 62914560), 31457280⟩,
     Entry.tensor ⟨"batched/1", .buffer_protocol, some (0, 31457280), 31457280⟩,
     Entry.tensor ⟨"batched/1", .buffer_protocol, some (31457280, 62914560), 31457280⟩] =
      entries30.map
        (relocEntry (wbFinal gB (resolveThreshold (some 52428800) 0) wreqs30).reloc) :=
  relocation_rewrites_matching_entries gB entries30 wreqs30 (some 52428800) 0 _ _
    (by decide) (by rfl)

end Batcher
